import Mathlib

/-!
Verification of the volatildap repository against its specification.

The development shallowly embeds the Python sources:
* `src/volatildap/core.py` — the LDIF codec (`ldif_encode`, `ldif_to_entries`,
  `entries_to_ldif`) together with the helpers it relies on (base64, UTF-8,
  `str.strip`, `str.split`, the `(\w+)(:?): (.*)` line pattern);
* `src/volatildap/server.py` — the `LdapServer` lifecycle state machine
  (`start`, `stop`, `wait`, `get`, `_shutdown`, `_clear`, `_populate`);
* `src/volatildap/control.py` — the HTTP control endpoints (`get_wait`) and
  the control-server thread management (`ControlServer.start/stop`).

Text is modelled as `List Nat` of Unicode code points, byte strings as
`List Nat` of bytes; Python `bytes.decode('ascii')` (resp. `str.encode`)
becomes an explicit all-below-128 guard (resp. UTF-8 byte production).
Fallible Python code (exceptions) is modelled with `Option`/`Except`.
-/

/-- Byte strings: each element is a byte value (0–255). -/
abbrev Bytes := List Nat

/-- Text strings: each element is a Unicode code point. -/
abbrev Str := List Nat

/-- The attribute map of one decoded entry: attribute name to list of byte values,
in insertion order, mirroring the Python `dict` built by `ldif_to_entries`. -/
abbrev AttrsB := List (Str × List Bytes)

/-- A decoded snapshot: DN to attribute map (`dict(dn => dict(attr => [values]))`). -/
abbrev EntriesB := List (Str × AttrsB)

/-! ### Python string helpers: `str.strip`, `\w`, `str.split` -/

/-- Code points for which Python's `str.isspace()` holds (the set stripped by
`str.strip()`): ASCII 9–13, 28–32, NEL, NBSP, and the Unicode space separators. -/
def pyWs (c : Nat) : Bool :=
  c == 9 || c == 10 || c == 11 || c == 12 || c == 13 ||
  c == 28 || c == 29 || c == 30 || c == 31 || c == 32 ||
  c == 133 || c == 160 || c == 5760 || (8192 ≤ c && c ≤ 8202) ||
  c == 8232 || c == 8233 || c == 8239 || c == 8287 || c == 12288

/-- Python `str.strip()`: drop leading and trailing whitespace. -/
def stripStr (s : Str) : Str :=
  ((s.dropWhile pyWs).reverse.dropWhile pyWs).reverse

/-- ASCII code points matched by the regex class `\w` (the input of every match
in `ldif_to_entries` has already been `.decode('ascii')`-ed, so only the ASCII
part of `\w` is reachable): letters, digits and underscore. -/
def isWordChar (c : Nat) : Bool :=
  (48 ≤ c && c ≤ 57) || (65 ≤ c && c ≤ 90) || (97 ≤ c && c ≤ 122) || c == 95

/-- Helper for the splitters: prepend a character to the first current chunk. -/
def consHead (c : Nat) : List (List Nat) → List (List Nat)
  | [] => [[c]]
  | h :: t => (c :: h) :: t

/-- Python `s.split('\n\n')`: leftmost, non-overlapping matches of the
two-newline separator; `''.split('\n\n') == ['']`. -/
def splitNN : List Nat → List (List Nat)
  | [] => [[]]
  | [c] => [[c]]
  | c :: d :: rest =>
    if c = 10 ∧ d = 10 then [] :: splitNN rest
    else consHead c (splitNN (d :: rest))

/-- Python `s.split('\n')`. -/
def splitN : List Nat → List (List Nat)
  | [] => [[]]
  | c :: rest => if c = 10 then [] :: splitN rest else consHead c (splitN rest)

/-- Python `'\n'.join(lines)`. -/
def joinNl : List Str → Str
  | [] => []
  | [l] => l
  | l :: ls => l ++ 10 :: joinNl ls

/-! ### Base64 (Python `base64.b64encode` / `base64.b64decode`) -/

/-- The standard base64 alphabet: index 0–63 to ASCII code. -/
def b64chr (n : Nat) : Nat :=
  if n < 26 then 65 + n
  else if n < 52 then 97 + (n - 26)
  else if n < 62 then 48 + (n - 52)
  else if n = 62 then 43
  else 47

/-- Python `base64.b64encode`: 3-byte groups to 4 alphabet characters, with
`=` (61) padding for a 1- or 2-byte tail. -/
def b64encode : Bytes → Str
  | [] => []
  | [a] => [b64chr (a / 4), b64chr (a % 4 * 16), 61, 61]
  | [a, b] => [b64chr (a / 4), b64chr (a % 4 * 16 + b / 16), b64chr (b % 16 * 4), 61]
  | a :: b :: c :: rest =>
    b64chr (a / 4) :: b64chr (a % 4 * 16 + b / 16) ::
    b64chr (b % 16 * 4 + c / 64) :: b64chr (c % 64) :: b64encode rest

/-- Inverse of the base64 alphabet. -/
def b64ord (c : Nat) : Option Nat :=
  if 65 ≤ c ∧ c ≤ 90 then some (c - 65)
  else if 97 ≤ c ∧ c ≤ 122 then some (26 + (c - 97))
  else if 48 ≤ c ∧ c ≤ 57 then some (52 + (c - 48))
  else if c = 43 then some 62
  else if c = 47 then some 63
  else none

/-- Python `base64.b64decode` on canonical input: 4-character groups, padding
only in the final group; anything else raises (here: `none`).  (CPython also
tolerates some non-canonical inputs — skipping foreign characters — but the
codec only ever feeds this function output of `b64encode`.) -/
def b64decode : Str → Option Bytes
  | [] => some []
  | c1 :: c2 :: c3 :: c4 :: rest =>
    match b64ord c1, b64ord c2 with
    | some a, some b =>
      if c3 = 61 then
        (if c4 = 61 ∧ rest = [] then some [a * 4 + b / 16] else none)
      else
        match b64ord c3 with
        | some c =>
          if c4 = 61 then
            (if rest = [] then some [a * 4 + b / 16, b % 16 * 16 + c / 4] else none)
          else
            match b64ord c4, b64decode rest with
            | some d, some r =>
              some ((a * 4 + b / 16) :: (b % 16 * 16 + c / 4) :: (c % 4 * 64 + d) :: r)
            | _, _ => none
        | none => none
    | _, _ => none
  | _ => none

/-! ### UTF-8 (Python `str.encode('utf-8')` / `bytes.decode('utf-8')`) -/

/-- A Unicode scalar value: what a Python `str` character may encode to UTF-8
(code point below 0x110000 and not a surrogate). -/
def validScalar (c : Nat) : Bool :=
  decide (c < 1114112 ∧ (c < 55296 ∨ 57344 ≤ c))

/-- UTF-8 encoding of a single scalar value. -/
def utf8Char (c : Nat) : List Nat :=
  if c < 128 then [c]
  else if c < 2048 then [192 + c / 64, 128 + c % 64]
  else if c < 65536 then [224 + c / 4096, 128 + c / 64 % 64, 128 + c % 64]
  else [240 + c / 262144, 128 + c / 4096 % 64, 128 + c / 64 % 64, 128 + c % 64]

/-- Python `str.encode('utf-8')`. -/
def utf8Str : Str → Bytes
  | [] => []
  | c :: s => utf8Char c ++ utf8Str s

/-- Decoder state machine for Python `bytes.decode('utf-8')` (strict):
`need` pending continuation bytes, `acc` the partial scalar value, `mn` the
smallest value the current sequence is allowed to produce (overlong forms are
rejected); surrogates and values above 0x10FFFF are rejected at the end of a
sequence. -/
def utf8Aux : Bytes → Nat → Nat → Nat → Option Str
  | [], need, _, _ => if need = 0 then some [] else none
  | b :: rest, 0, _, _ =>
    if b < 128 then (utf8Aux rest 0 0 0).map (b :: ·)
    else if 194 ≤ b ∧ b < 224 then utf8Aux rest 1 (b - 192) 128
    else if 224 ≤ b ∧ b < 240 then utf8Aux rest 2 (b - 224) 2048
    else if 240 ≤ b ∧ b < 245 then utf8Aux rest 3 (b - 240) 65536
    else none
  | b :: rest, need + 1, acc, mn =>
    if 128 ≤ b ∧ b < 192 then
      if need = 0 then
        if mn ≤ acc * 64 + (b - 128) ∧
            (acc * 64 + (b - 128) < 55296 ∨ 57344 ≤ acc * 64 + (b - 128)) ∧
            acc * 64 + (b - 128) < 1114112 then
          (utf8Aux rest 0 0 0).map ((acc * 64 + (b - 128)) :: ·)
        else none
      else utf8Aux rest need (acc * 64 + (b - 128)) mn
    else none

/-- Python `bytes.decode('utf-8')`. -/
def utf8Decode (l : Bytes) : Option Str := utf8Aux l 0 0 0

/-! ### The LDIF value alphabet (`core.py` lines 127–133) -/

/-- `_BASE_LDIF_ASCII_CODES = [i for i in range(20, 128) if chr(i) not in [' ', '<', ':']]`:
byte values a non-base64-encoded LDIF value may contain. -/
def _BASE_LDIF_ASCII_CODES : List Nat :=
  (List.range' 20 108).filter (fun i => decide (i ≠ 32) && decide (i ≠ 60) && decide (i ≠ 58))

/-- Membership in `_BASE_LDIF_ASCII_CODES` (also used for the character list
`_BASE_LDIF`, whose members are exactly `chr` of these codes). -/
def memBase (c : Nat) : Bool := _BASE_LDIF_ASCII_CODES.contains c

/-! ### `ldif_encode` (`core.py` lines 135–157) -/

/-- A Python value passed to `ldif_encode`: either `bytes` or `str`. -/
inductive LdifValue where
  | bytes (b : Bytes)
  | text (s : Str)
deriving DecidableEq

/-- The attribute map of an entry handed to the encoder (values may be
`bytes` or `str`, as in `LdapServer._core_data`). -/
abbrev AttrsM := List (Str × List LdifValue)

/-- A snapshot handed to the encoder. -/
abbrev EntriesM := List (Str × AttrsM)

/-- `ldif_encode(attr, value)`: emit `attr: value` when every byte/character is
in the base alphabet, `attr:: base64` otherwise (with `str` values encoded
through UTF-8 first).  `58` is `':'`, `32` is `' '`. -/
def ldif_encode (attr : Str) (value : LdifValue) : Str :=
  match value with
  | .bytes b =>
    if b.all memBase then attr ++ 58 :: 32 :: b
    else attr ++ 58 :: 58 :: 32 :: b64encode b
  | .text s =>
    if s.any (fun c => !memBase c) then attr ++ 58 :: 58 :: 32 :: b64encode (utf8Str s)
    else attr ++ 58 :: 32 :: s

/-! ### `ldif_to_entries` (`core.py` lines 160–201) -/

/-- The code points of `"dn"`. -/
def dnKey : Str := [100, 110]

/-- The code points of `"version:"`. -/
def versionColon : Str := [118, 101, 114, 115, 105, 111, 110, 58]

/-- `re.match('^version: +1$', s)`: `"version:"`, one or more spaces, `"1"`. -/
def matchVer (s : Str) : Prop :=
  s.take 8 = versionColon ∧
  (s.drop 8).takeWhile (· == 32) ≠ [] ∧
  (s.drop 8).dropWhile (· == 32) = [49]

instance (s : Str) : Decidable (matchVer s) := by
  unfold matchVer; infer_instance

/-- `re.match(r'(\w+)(:?): (.*)', line.strip())`: returns the attribute name,
whether the line is base64-extended (`::`), and the raw payload. -/
def parseLine (line : Str) : Option (Str × Bool × Str) :=
  let s := stripStr line
  let name := s.takeWhile isWordChar
  let rest := s.dropWhile isWordChar
  if name = [] then none
  else if rest.take 3 = [58, 58, 32] then some (name, true, rest.drop 3)
  else if rest.take 2 = [58, 32] then some (name, false, rest.drop 2)
  else none

/-- Association-list lookup mirroring Python `dict` indexing. -/
def lookupA {β : Type} : List (Str × β) → Str → Option β
  | [], _ => none
  | (k', v) :: rest, k => if k' = k then some v else lookupA rest k

/-- Python `dict.pop(k)`: drop the (unique) binding of `k`. -/
def removeKey {β : Type} : List (Str × β) → Str → List (Str × β)
  | [], _ => []
  | (k', v) :: rest, k => if k' = k then rest else (k', v) :: removeKey rest k

/-- `attributes.setdefault(field, []).append(value)`: append `v` to the binding
of `name`, creating the binding at the end of the map if absent. -/
def appendValue : AttrsB → Str → Bytes → AttrsB
  | [], name, v => [(name, [v])]
  | (k, vs) :: rest, name, v =>
    if k = name then (k, vs ++ [v]) :: rest else (k, vs) :: appendValue rest name v

/-- Python `dict` assignment `d[k] = v`: replace in place or append. -/
def dictInsert {β : Type} : List (Str × β) → Str → β → List (Str × β)
  | [], k, v => [(k, v)]
  | (k', v') :: rest, k, v =>
    if k' = k then (k', v) :: rest else (k', v') :: dictInsert rest k v

/-- One iteration of the line loop of `ldif_to_entries`: skip blank lines,
parse the `name[:]: value` pattern (failure raises), base64-decode extended
payloads, and accumulate into the attribute map.  Non-extended payloads are
`value.encode('ascii')`; the block is already ASCII-decoded, so this is the
identity on the code points. -/
def addLine (acc : AttrsB) (line : Str) : Option AttrsB :=
  if stripStr line = [] then some acc
  else
    match parseLine line with
    | none => none
    | some (name, isExt, payload) =>
      if isExt then
        match b64decode payload with
        | none => none
        | some v => some (appendValue acc name v)
      else some (appendValue acc name payload)

/-- Fold `addLine` over the lines of a block. -/
def assembleFrom (acc : AttrsB) : List Str → Option AttrsB
  | [] => some acc
  | l :: ls =>
    match addLine acc l with
    | none => none
    | some acc2 => assembleFrom acc2 ls

/-- Process one non-version block of `ldif_to_entries`: split into lines,
assemble the attribute map, then `dns = attributes.pop('dn', [b''])`,
`assert len(dns) == 1`, and key the entry by `dns[0].decode('utf-8')`. -/
def processEntry (block : Str) : Option (Str × AttrsB) :=
  match assembleFrom [] (splitN block) with
  | none => none
  | some attrs =>
    match lookupA attrs dnKey with
    | none => (utf8Decode []).map (fun d => (d, attrs))
    | some vs =>
      match vs with
      | [v] => (utf8Decode v).map (fun d => (d, removeKey attrs dnKey))
      | _ => none

/-- The block loop of `ldif_to_entries`: skip whitespace-only blocks, accept a
`version: 1` directive block (any other `version:` block raises), and insert
each decoded entry into the result dict. -/
def processBlocks : List Str → EntriesB → Option EntriesB
  | [], acc => some acc
  | b :: rest, acc =>
    if stripStr b = [] then processBlocks rest acc
    else if b.take 8 = versionColon then
      (if matchVer (stripStr b) then processBlocks rest acc else none)
    else
      match processEntry b with
      | none => none
      | some (dn, attrs) => processBlocks rest (dictInsert acc dn attrs)

/-- `ldif_to_entries(ldif_lines)`: ASCII-decode the input (failure raises),
split on blank lines, and process each block. -/
def ldif_to_entries (input : Bytes) : Option EntriesB :=
  if input.all (fun c => decide (c < 128)) then processBlocks (splitNN input) []
  else none

/-! ### `entries_to_ldif` (`core.py` lines 204–224) -/

/-- Codepoint-lexicographic string order (Python `str` comparison). -/
def strLe : Str → Str → Bool
  | [], _ => true
  | _ :: _, [] => false
  | a :: as', b :: bs => if a < b then true else if a = b then strLe as' bs else false

/-- The sort key of `sorted(entries.items(), key=lambda e: (len(e[0]), e))`:
DN length first, then lexicographic DN.  (The third tuple component — the
attribute dict — is only compared when two DNs coincide, which cannot happen
for keys of one dict.) -/
def entryLe {β : Type} (x y : Str × β) : Prop :=
  x.1.length < y.1.length ∨ (x.1.length = y.1.length ∧ strLe x.1 y.1 = true)

instance {β : Type} : DecidableRel (entryLe (β := β)) := fun x y => by
  unfold entryLe; infer_instance

/-- The entry ordering used by the encoder. -/
def sortEntries {β : Type} (l : List (Str × β)) : List (Str × β) :=
  l.insertionSort entryLe

/-- `sorted(attributes.items())`: attribute maps are sorted by name. -/
def sortAttrs {β : Type} (l : List (Str × β)) : List (Str × β) :=
  l.insertionSort (fun x y => strLe x.1 y.1 = true)

/-- The code points of `"version: 1"`. -/
def versionLine : Str := [118, 101, 114, 115, 105, 111, 110, 58, 32, 49]

/-- The empty line yielded after the header and after each entry. -/
def blankLine : Str := []

/-- The value lines of one entry: for each attribute (already sorted), its
values in original order. -/
def attrLines : AttrsM → List Str
  | [] => []
  | (a, vs) :: rest => vs.map (fun v => ldif_encode a v) ++ attrLines rest

/-- The lines yielded for one entry: DN line, value lines, blank separator. -/
def entryLines (e : Str × AttrsM) : List Str :=
  ldif_encode dnKey (.text e.1) :: (attrLines (sortAttrs e.2) ++ [blankLine])

/-- Concatenate the per-entry line blocks. -/
def entryBlocksLines : EntriesM → List Str
  | [] => []
  | e :: rest => entryLines e ++ entryBlocksLines rest

/-- `entries_to_ldif(entries)`: version header, blank line, then the sorted
entries' blocks. -/
def entries_to_ldif (entries : EntriesM) : List Str :=
  versionLine :: blankLine :: entryBlocksLines (sortEntries entries)

/-- View a decoded-shape snapshot (all values `bytes`) as encoder input. -/
def toMixed (S : EntriesB) : EntriesM :=
  S.map (fun e => (e.1, e.2.map (fun av => (av.1, av.2.map LdifValue.bytes))))


/-! ### Basic facts about the value alphabet -/

theorem memBase_iff (c : Nat) :
    memBase c = true ↔ (20 ≤ c ∧ c < 128 ∧ c ≠ 32 ∧ c ≠ 60 ∧ c ≠ 58) := by
  simp only [memBase, _BASE_LDIF_ASCII_CODES]
  simp [List.mem_filter, List.mem_range'_1]
  omega

theorem memBase_lt_128 {c : Nat} (h : memBase c = true) : c < 128 :=
  ((memBase_iff c).1 h).2.1

theorem memBase_ne_nl {c : Nat} (h : memBase c = true) : c ≠ 10 := by
  have := (memBase_iff c).1 h; omega

/-! ### UTF-8 facts -/

theorem utf8Char_ascii {c : Nat} (h : c < 128) : utf8Char c = [c] := by
  simp [utf8Char, h]

theorem utf8Str_ascii {s : Str} (h : ∀ c ∈ s, c < 128) : utf8Str s = s := by
  induction s with
  | nil => rfl
  | cons c cs ih =>
    simp only [utf8Str, utf8Char_ascii (h c (by simp)), List.cons_append, List.nil_append]
    rw [ih (fun x hx => h x (by simp [hx]))]

theorem utf8Char_high_head {c : Nat} (h : 128 ≤ c) :
    ∃ b rest, utf8Char c = b :: rest ∧ 128 ≤ b := by
  unfold utf8Char
  split
  · omega
  split
  · exact ⟨_, _, rfl, by omega⟩
  split
  · exact ⟨_, _, rfl, by omega⟩
  · exact ⟨_, _, rfl, by omega⟩

/-! ### Lexicographic string order facts -/

theorem strLe_total (a b : Str) : strLe a b = true ∨ strLe b a = true := by
  induction a generalizing b with
  | nil => left; rfl
  | cons x xs ih =>
    cases b with
    | nil => right; rfl
    | cons y ys =>
      by_cases hxy : x < y
      · left; simp [strLe, hxy]
      · by_cases hyx : y < x
        · right; simp [strLe, hyx]
        · have hxy' : x = y := by omega
          subst hxy'
          rcases ih ys with h | h
          · left; simp [strLe, h]
          · right; simp [strLe, h]

theorem strLe_trans {a b c : Str} (hab : strLe a b = true) (hbc : strLe b c = true) :
    strLe a c = true := by
  induction a generalizing b c with
  | nil => rfl
  | cons x xs ih =>
    cases b with
    | nil => simp [strLe] at hab
    | cons y ys =>
      cases c with
      | nil => simp [strLe] at hbc
      | cons z zs =>
        simp only [strLe] at hab hbc ⊢
        split at hab
        · -- x < y
          split at hbc
          · split
            · rfl
            · split
              · omega
              · omega
          · split at hbc
            · split
              · rfl
              · split
                · omega
                · omega
            · exact absurd hbc (by simp)
        · split at hab
          · -- x = y
            split at hbc
            · split
              · rfl
              · split
                · omega
                · omega
            · split at hbc
              · split
                · rfl
                · split
                  · exact ih hab hbc
                  · omega
              · exact absurd hbc (by simp)
          · exact absurd hab (by simp)

instance {β : Type} : IsTotal (Str × β) entryLe where
  total := by
    intro x y
    unfold entryLe
    rcases Nat.lt_trichotomy x.1.length y.1.length with h | h | h
    · left; left; exact h
    · rcases strLe_total x.1 y.1 with hs | hs
      · left; right; exact ⟨h, hs⟩
      · right; right; exact ⟨h.symm, hs⟩
    · right; left; exact h

instance {β : Type} : IsTrans (Str × β) entryLe where
  trans := by
    intro x y z hxy hyz
    unfold entryLe at *
    rcases hxy with h1 | ⟨h1, hs1⟩
    · rcases hyz with h2 | ⟨h2, _⟩
      · left; omega
      · left; omega
    · rcases hyz with h2 | ⟨h2, hs2⟩
      · left; omega
      · right; exact ⟨by omega, strLe_trans hs1 hs2⟩

/-! ### Claim C4 -/

/-- C4: the encoder decides literal-versus-base64 per value: a byte value is
emitted verbatim as `name: value` iff every byte is in 0x14–0x7F and none is
space, `<` or `:`; otherwise it is emitted as `name:: base64value`.  The
single byte 0x20 is base64-encoded (`IA==`), a letters-only value is literal. -/
theorem ldif_encode_literal_iff (attr : Str) (v : Bytes) :
    (ldif_encode attr (.bytes v) = attr ++ 58 :: 32 :: v ↔
      ∀ b ∈ v, 20 ≤ b ∧ b ≤ 127 ∧ b ≠ 32 ∧ b ≠ 60 ∧ b ≠ 58) ∧
    ((¬ ∀ b ∈ v, 20 ≤ b ∧ b ≤ 127 ∧ b ≠ 32 ∧ b ≠ 60 ∧ b ≠ 58) →
      ldif_encode attr (.bytes v) = attr ++ 58 :: 58 :: 32 :: b64encode v) ∧
    ldif_encode attr (.bytes [32]) = attr ++ 58 :: 58 :: 32 :: [73, 65, 61, 61] ∧
    ((∀ b ∈ v, (65 ≤ b ∧ b ≤ 90) ∨ (97 ≤ b ∧ b ≤ 122)) →
      ldif_encode attr (.bytes v) = attr ++ 58 :: 32 :: v) := by
  have hchar : v.all memBase = true ↔ ∀ b ∈ v, 20 ≤ b ∧ b ≤ 127 ∧ b ≠ 32 ∧ b ≠ 60 ∧ b ≠ 58 := by
    rw [List.all_eq_true]
    constructor
    · intro h b hb
      have := (memBase_iff b).1 (h b hb); omega
    · intro h b hb
      rw [memBase_iff]
      have := h b hb; omega
  refine ⟨?_, ?_, ?_, ?_⟩
  · constructor
    · intro heq
      by_contra hnot
      have hall : v.all memBase = false := by
        cases hv : v.all memBase
        · rfl
        · exact absurd (hchar.1 hv) hnot
      rw [ldif_encode, hall] at heq
      simp only [Bool.false_eq_true, if_false] at heq
      have := List.append_cancel_left heq
      simp at this
    · intro h
      rw [ldif_encode, hchar.2 h]
      simp
  · intro hnot
    have hall : v.all memBase = false := by
      cases hv : v.all memBase
      · rfl
      · exact absurd (hchar.1 hv) hnot
    rw [ldif_encode, hall]
    simp
  · have h32 : ([32] : Bytes).all memBase = false := by decide
    have hb64 : b64encode [32] = [73, 65, 61, 61] := by decide
    rw [ldif_encode, h32, hb64]
    simp
  · intro h
    rw [ldif_encode]
    have : v.all memBase = true := by
      rw [hchar]
      intro b hb
      rcases h b hb with h1 | h1 <;> omega
    rw [this]
    simp

/-- Witness for C4 at a concrete input: the single letter `A` under attribute
`cn` is emitted literally. -/
theorem ldif_encode_literal_iff_witness :
    ldif_encode [99, 110] (.bytes [65]) = [99, 110] ++ 58 :: 32 :: [65] :=
  ((ldif_encode_literal_iff [99, 110] [65]).1).mpr (by decide)

/-! ### Claim C10 -/

theorem any_not_memBase_iff_utf8 (s : Str) :
    s.any (fun c => !memBase c) = true ↔ ¬ ((utf8Str s).all memBase = true) := by
  induction s with
  | nil => simp [utf8Str]
  | cons c cs ih =>
    simp only [List.any_cons, utf8Str, List.all_append, Bool.or_eq_true, Bool.and_eq_true,
      Bool.not_eq_true']
    constructor
    · rintro (hc | hcs)
      · intro ⟨h1, _⟩
        by_cases hlt : c < 128
        · rw [utf8Char_ascii hlt] at h1
          simp [List.all_eq_true] at h1
          rw [h1] at hc; simp at hc
        · obtain ⟨b, rest, heq, hb⟩ := @utf8Char_high_head c (by omega)
          rw [heq] at h1
          simp [List.all_eq_true] at h1
          have := memBase_lt_128 h1.1
          omega
      · intro ⟨_, h2⟩
        exact (ih.1 hcs) h2
    · intro h
      by_cases hc : memBase c
      · right
        rw [ih]
        intro h2
        apply h
        refine ⟨?_, h2⟩
        rw [utf8Char_ascii (memBase_lt_128 hc)]
        simp [hc]
      · left
        simp [hc]

/-- C10: the value encoder is a homomorphism with respect to UTF-8: encoding
a `str` value and encoding its UTF-8 byte encoding produce the same line
(same literal/base64 choice, same payload).  The hypothesis restricts to
strings every Python `str.encode('utf-8')` accepts (no surrogates). -/
theorem ldif_encode_text_utf8 (attr : Str) (s : Str)
    (_h : ∀ c ∈ s, validScalar c = true) :
    ldif_encode attr (.text s) = ldif_encode attr (.bytes (utf8Str s)) := by
  rw [ldif_encode, ldif_encode]
  cases hany : s.any (fun c => !memBase c) with
  | true =>
    have : (utf8Str s).all memBase = false := by
      have := (any_not_memBase_iff_utf8 s).1 hany
      cases h : (utf8Str s).all memBase
      · rfl
      · exact absurd h this
    rw [this]
    simp
  | false =>
    have hall : ∀ c ∈ s, memBase c = true := by
      intro c hc
      by_contra h
      have : s.any (fun c => !memBase c) = true := by
        rw [List.any_eq_true]
        exact ⟨c, hc, by simp [h]⟩
      rw [this] at hany; cases hany
    have hascii : utf8Str s = s := utf8Str_ascii (fun c hc => memBase_lt_128 (hall c hc))
    have : (utf8Str s).all memBase = true := by
      rw [hascii, List.all_eq_true]
      exact hall
    rw [this, hascii]
    simp

/-- Witness for C10: the one-character string `é` (U+00E9). -/
theorem ldif_encode_text_utf8_witness :
    ldif_encode [99, 110] (.text [233]) = ldif_encode [99, 110] (.bytes (utf8Str [233])) :=
  ldif_encode_text_utf8 [99, 110] [233] (by decide)

/-! ### Claim C5 -/

/-- C5: the encoder emits entries sorted by DN length first and lexicographic
DN second: the body of `entries_to_ldif` is the per-entry blocks of
`sortEntries`, which is a permutation of the input, pairwise ordered by
`entryLe`; consequently a shorter DN always precedes a longer one, and a child
(an entry whose DN has another entry's DN as proper string suffix) never
precedes its parent. -/
theorem entries_to_ldif_sorted (S : EntriesM) :
    entries_to_ldif S = versionLine :: blankLine :: entryBlocksLines (sortEntries S) ∧
    List.Perm (sortEntries S) S ∧
    (sortEntries S).Pairwise entryLe ∧
    (sortEntries S).Pairwise (fun x y => x.1.length ≤ y.1.length) ∧
    (sortEntries S).Pairwise (fun x y => ¬ (y.1 ≠ x.1 ∧ y.1.IsSuffix x.1)) := by
  have hsorted : (sortEntries S).Pairwise entryLe := by
    simpa [sortEntries, List.Sorted] using List.sorted_insertionSort entryLe S
  refine ⟨rfl, List.perm_insertionSort entryLe S, hsorted, ?_, ?_⟩
  · exact hsorted.imp (fun h => by rcases h with h | ⟨h, _⟩ <;> omega)
  · refine hsorted.imp ?_
    intro a b hab
    rintro ⟨hne, hsuf⟩
    have hlen : b.1.length ≤ a.1.length := hsuf.length_le
    have : b.1.length ≠ a.1.length := by
      intro h
      exact hne (hsuf.eq_of_length h)
    rcases hab with h | ⟨h, _⟩ <;> omega

/-! ### Claim C8 -/

/-- C8 (amended): for every non-version block, the decoder removes the `dn`
attribute from the assembled attribute map and uses it as the entry key; a
block with more than one `dn` line fails the decode (`assert len(dns) == 1`);
but a block with zero `dn` lines is accepted: the missing `dn` defaults to a
single empty value (`attributes.pop('dn', [b''])`) and the block becomes an
entry keyed by the empty DN. -/
theorem processEntry_dn_rule (b : Str) (A : AttrsB)
    (h : assembleFrom [] (splitN b) = some A) :
    (∀ vs, lookupA A dnKey = some vs → vs.length ≠ 1 → processEntry b = none) ∧
    (∀ v, lookupA A dnKey = some [v] →
      processEntry b = (utf8Decode v).map (fun d => (d, removeKey A dnKey))) ∧
    (lookupA A dnKey = none → processEntry b = some ([], A)) := by
  refine ⟨?_, ?_, ?_⟩
  · intro vs hvs hlen
    simp only [processEntry, h, hvs]
    match vs, hlen with
    | [], _ => rfl
    | v1 :: v2 :: rest, _ => rfl
    | [v], h1 => exact absurd rfl h1
  · intro v hv
    simp only [processEntry, h, hv]
  · intro hnone
    simp only [processEntry, h, hnone]
    rfl

/-- Witness for C8's amended rule: the single-line block `dn: a` decodes to an
entry keyed `a` with an empty attribute map. -/
theorem processEntry_dn_rule_witness :
    processEntry [100, 110, 58, 32, 97] = some ([97], []) :=
  (processEntry_dn_rule [100, 110, 58, 32, 97] [(dnKey, [[97]])] (by decide)).2.1
    [97] (by decide)

/-- Counterexample to C8 as stated: the claim says a block with zero `dn`
lines is not accepted as a well-formed entry, but decoding
`b"version: 1\n\nobjectClass: top\n"` (whose one block has no `dn` line)
succeeds, producing an entry keyed by the empty DN. -/
theorem ldif_to_entries_accepts_missing_dn :
    ldif_to_entries
      [118, 101, 114, 115, 105, 111, 110, 58, 32, 49, 10, 10,
       111, 98, 106, 101, 99, 116, 67, 108, 97, 115, 115, 58, 32, 116, 111, 112, 10] =
    some [([], [([111, 98, 106, 101, 99, 116, 67, 108, 97, 115, 115], [[116, 111, 112]])])] := by
  rfl

/-! ### Server lifecycle model (`server.py`, `control.py`)

The external OpenLDAP binaries are out of scope for the repository (the spec
treats them as black boxes judged by exit code); their outcomes during one
call are supplied by an environment record, and the directory contents they
maintain are modelled as an association list updated by the documented
`add`/`clear` semantics. -/

/-- Python exception classes reachable in the embedded code paths. -/
inductive PyExc where
  | runtimeError
  | osError
  | keyError
  | valueError
  | coreTimeoutExpired
  | subprocTimeoutExpired
deriving DecidableEq

/-- Observable side effects performed by the controller. -/
inductive Ev where
  | controlStarted
  | wsCreated
  | spawned
  | terminated
  | waitedProc
  | wsDestroyed
  | controlJoined
deriving DecidableEq

/-- The mutable state of one `LdapServer` (plus its attached `ControlServer`
thread flag and the external server's directory contents). -/
structure SrvState where
  process : Option Nat
  tempdir : Option Nat
  controlThread : Bool
  directory : EntriesM
deriving DecidableEq

/-- The per-instance configuration fixed at construction. -/
structure Config where
  suffix : Str
  hasControl : Bool
  initialData : EntriesM
deriving DecidableEq

/-- Outcome of `_poll_slapd`. -/
inductive PollOutcome where
  | ready
  | exitedEarly
  | timedOut
deriving DecidableEq

/-- Outcomes of the external steps of one `start()` call. -/
structure StartEnv where
  wsOk : Bool
  slaptestOk : Bool
  spawnOk : Bool
  poll : PollOutcome
  clearSearchOk : Bool
  clearDeleteOk : Bool
  addCoreOk : Bool
  addInitialOk : Bool
deriving DecidableEq

/-- `BaseServer._normalize_dn`: append `,suffix` unless already suffixed. -/
def _normalize_dn (suffix dn : Str) : Str :=
  if suffix.isSuffixOf dn then dn else dn ++ 44 :: suffix

/-- Python `s.split(',')`. -/
def splitC : Str → List Str
  | [] => [[]]
  | c :: rest => if c = 44 then [] :: splitC rest else consHead c (splitC rest)

/-- The code points of `"objectClass"`. -/
def objectClassK : Str := [111, 98, 106, 101, 99, 116, 67, 108, 97, 115, 115]

/-- `LdapServer._core_data`: the root entry at the suffix, holding
`objectClass: [dcObject, organization]`, `dc: [suffix.split(',')[0][3:]]` and
`o: [suffix]` (all Python `str` values). -/
def _core_data (cfg : Config) : EntriesM :=
  [(cfg.suffix,
    [(objectClassK,
      [LdifValue.text [100, 99, 79, 98, 106, 101, 99, 116],
       LdifValue.text [111, 114, 103, 97, 110, 105, 122, 97, 116, 105, 111, 110]]),
     ([100, 99], [LdifValue.text (((splitC cfg.suffix).headD []).drop 3)]),
     ([111], [LdifValue.text cfg.suffix])])]

/-- Fold `dictInsert` over a list of entries, rewriting each key by `f`. -/
def foldInsert {β : Type} (f : Str → Str) (acc : List (Str × β)) (data : List (Str × β)) :
    List (Str × β) :=
  data.foldl (fun a e => dictInsert a (f e.1) e.2) acc

/-- The dict comprehension of `_data_as_ldif`: normalize every DN. -/
def normalizeData (suffix : Str) (data : EntriesM) : EntriesM :=
  foldInsert (_normalize_dn suffix) [] data

/-- `LdapServer.add(data)` on the directory contents: the normalized entries
are serialized by `entries_to_ldif` (hence in `sortEntries` order) and
inserted one at a time by the external add tool. -/
def addOp (suffix : Str) (dir : EntriesM) (data : EntriesM) : EntriesM :=
  foldInsert id dir (sortEntries (normalizeData suffix data))

namespace LdapServer

/-- `LdapServer._shutdown`: terminate and wait for the process if any (the
external directory dies with it), then clean up the workspace if any; both
references are cleared. -/
def _shutdown (st : SrvState) : SrvState × List Ev :=
  let p :=
    match st.process with
    | some _ => ({ st with process := none, directory := [] }, [Ev.terminated, Ev.waitedProc])
    | none => (st, ([] : List Ev))
  match p.1.tempdir with
  | some _ => ({ p.1 with tempdir := none }, p.2 ++ [Ev.wsDestroyed])
  | none => (p.1, p.2)

/-- `ControlServer.start` as invoked from `LdapServer.start`: spawn the
handler thread unless it is already running. -/
def controlStart (hasCtl : Bool) (st : SrvState) : SrvState × List Ev :=
  if hasCtl && !st.controlThread then ({ st with controlThread := true }, [Ev.controlStarted])
  else (st, ([] : List Ev))

/-- `LdapServer._populate`: `add` the core data, then the initial data if
non-empty; each add tool invocation may fail with a non-zero exit code. -/
def populateStep (cfg : Config) (st : SrvState) (ev : List Ev) (env : StartEnv) :
    Except PyExc Unit × SrvState × List Ev :=
  if !env.addCoreOk then (.error .runtimeError, st, ev)
  else
    let st1 := { st with directory := addOp cfg.suffix st.directory (_core_data cfg) }
    if cfg.initialData = [] then (.ok (), st1, ev)
    else if !env.addInitialOk then (.error .runtimeError, st1, ev)
    else
      (.ok (), { st1 with directory := addOp cfg.suffix st1.directory cfg.initialData }, ev)

/-- The `try:` body of `LdapServer.start`: start the control server when
configured; when no process exists, `_setup` (workspace, config validation)
then `_start` (spawn, readiness poll); when a process exists, `_clear`
(search the whole tree, delete everything found); finally `_populate`. -/
def startBody (cfg : Config) (st : SrvState) (env : StartEnv) :
    Except PyExc Unit × SrvState × List Ev :=
  let c := controlStart cfg.hasControl st
  match c.1.process with
  | none =>
    if !env.wsOk then (.error .osError, c.1, c.2)
    else
      let st2 : SrvState := { c.1 with tempdir := some 1 }
      let ev2 := c.2 ++ [Ev.wsCreated]
      if !env.slaptestOk then (.error .runtimeError, st2, ev2)
      else if !env.spawnOk then (.error .osError, st2, ev2)
      else
        let st3 : SrvState := { st2 with process := some 1, directory := [] }
        let ev3 := ev2 ++ [Ev.spawned]
        match env.poll with
        | .exitedEarly => (.error .runtimeError, st3, ev3)
        | .timedOut => (.error .runtimeError, st3, ev3)
        | .ready => populateStep cfg st3 ev3 env
  | some _ =>
    if !env.clearSearchOk then (.error .runtimeError, c.1, c.2)
    else if !env.clearDeleteOk then (.error .runtimeError, c.1, c.2)
    else populateStep cfg { c.1 with directory := [] } c.2 env

/-- `LdapServer.start`: run the body; on any exception, `_shutdown` and
re-raise. -/
def start (cfg : Config) (st : SrvState) (env : StartEnv) :
    Except PyExc Unit × SrvState × List Ev :=
  match startBody cfg st env with
  | (.ok _, st1, ev) => (.ok (), st1, ev)
  | (.error e, st1, ev) =>
    let s := _shutdown st1
    (.error e, s.1, ev ++ s.2)

/-- `LdapServer.stop`: just `_shutdown`. -/
def stop (st : SrvState) : SrvState × List Ev :=
  _shutdown st

/-- `LdapServer.wait(timeout)`: block until the process exits;
`subprocess.TimeoutExpired` is re-raised as `volatildap.core.TimeoutExpired`.
`exitsWithin` tells whether the process exits before the deadline. -/
def wait (_timeout : Option Nat) (exitsWithin : Bool) : Except PyExc Unit :=
  if exitsWithin then .ok () else .error .coreTimeoutExpired

end LdapServer

namespace ControlServer

/-- `ControlServer.stop`: when the handler thread is running, shut the HTTP
server down, join the thread and clear the handle; otherwise a no-op. -/
def stop (st : SrvState) : SrvState × List Ev :=
  if st.controlThread then ({ st with controlThread := false }, [Ev.controlJoined])
  else (st, ([] : List Ev))

end ControlServer

/-- The outcome of the external search tool behind one `get` call. -/
structure GetEnv where
  exitCode : Nat
  stdout : Bytes
deriving DecidableEq

namespace LdapServer

/-- `LdapServer.get(dn)`: normalize the DN, run the search tool; exit code 32
raises `KeyError` (not found), any other non-zero exit raises `RuntimeError`,
success decodes the output and indexes it at the normalized DN. -/
def get (cfg : Config) (dn : Str) (env : GetEnv) : Except PyExc AttrsB :=
  let ndn := _normalize_dn cfg.suffix dn
  if env.exitCode = 32 then .error .keyError
  else if env.exitCode ≠ 0 then .error .runtimeError
  else
    match ldif_to_entries env.stdout with
    | none => .error .valueError
    | some es =>
      match lookupA es ndn with
      | some a => .ok a
      | none => .error .keyError

end LdapServer

namespace RequestHandler

/-- `RequestHandler.get_wait`: call `wait(5)`; reply 204 on normal return;
the `except` clause catches `subprocess.TimeoutExpired` and replies 504; any
other exception escapes the handler (no status is sent — `none`). -/
def get_wait (exitsWithin : Bool) : Option Nat :=
  match LdapServer.wait (some 5) exitsWithin with
  | .ok _ => some 204
  | .error e => if e = PyExc.subprocTimeoutExpired then some 504 else none

end RequestHandler

/-! ### Association-list lemmas for the directory model -/

theorem lookupA_isSome_iff {β : Type} (l : List (Str × β)) (k : Str) :
    (lookupA l k).isSome = true ↔ k ∈ l.map Prod.fst := by
  induction l with
  | nil => simp [lookupA]
  | cons e rest ih =>
    obtain ⟨k', v⟩ := e
    by_cases h : k' = k
    · subst h; simp [lookupA]
    · simp [lookupA, h, ih, Ne.symm h]

theorem lookupA_eq_none_iff {β : Type} (l : List (Str × β)) (k : Str) :
    lookupA l k = none ↔ k ∉ l.map Prod.fst := by
  rw [← lookupA_isSome_iff]
  cases lookupA l k <;> simp

theorem mem_keys_dictInsert {β : Type} (l : List (Str × β)) (k : Str) (v : β) (k' : Str) :
    k' ∈ (dictInsert l k v).map Prod.fst ↔ k' = k ∨ k' ∈ l.map Prod.fst := by
  induction l with
  | nil => simp [dictInsert]
  | cons e rest ih =>
    obtain ⟨k0, v0⟩ := e
    by_cases h : k0 = k
    · subst h; simp [dictInsert]
    · simp [dictInsert, h, ih]
      tauto

theorem mem_keys_foldInsert {β : Type} (f : Str → Str) (data : List (Str × β))
    (acc : List (Str × β)) (k : Str) :
    k ∈ (foldInsert f acc data).map Prod.fst ↔
      k ∈ acc.map Prod.fst ∨ ∃ e ∈ data, f e.1 = k := by
  induction data generalizing acc with
  | nil => simp [foldInsert]
  | cons e rest ih =>
    rw [foldInsert, List.foldl_cons]
    rw [show List.foldl (fun a e => dictInsert a (f e.1) e.2) (dictInsert acc (f e.1) e.2) rest =
      foldInsert f (dictInsert acc (f e.1) e.2) rest from rfl]
    rw [ih]
    rw [mem_keys_dictInsert]
    constructor
    · rintro ((h | h) | h)
      · right; exact ⟨e, by simp, h.symm⟩
      · left; exact h
      · obtain ⟨e', he', hf⟩ := h
        right; exact ⟨e', by simp [he'], hf⟩
    · rintro (h | ⟨e', he', hf⟩)
      · left; right; exact h
      · rcases List.mem_cons.1 he' with h1 | h1
        · subst h1; left; left; exact hf.symm
        · right; exact ⟨e', h1, hf⟩

theorem mem_keys_sortEntries {β : Type} (l : List (Str × β)) (k : Str) :
    k ∈ (sortEntries l).map Prod.fst ↔ k ∈ l.map Prod.fst :=
  ((List.perm_insertionSort entryLe l).map Prod.fst).mem_iff

theorem mem_keys_addOp (sfx : Str) (dir data : EntriesM) (k : Str) :
    k ∈ (addOp sfx dir data).map Prod.fst ↔
      k ∈ dir.map Prod.fst ∨ ∃ e ∈ data, _normalize_dn sfx e.1 = k := by
  unfold addOp
  rw [mem_keys_foldInsert]
  constructor
  · rintro (h | ⟨e, he, hf⟩)
    · left; exact h
    · right
      have : e.1 ∈ (sortEntries (normalizeData sfx data)).map Prod.fst :=
        List.mem_map.2 ⟨e, he, rfl⟩
      rw [mem_keys_sortEntries] at this
      rw [normalizeData, mem_keys_foldInsert] at this
      rcases this with h | ⟨e', he', hf'⟩
      · simp at h
      · exact ⟨e', he', hf'.trans hf⟩
  · rintro (h | ⟨e, he, hf⟩)
    · left; exact h
    · right
      have hmem : _normalize_dn sfx e.1 ∈ (normalizeData sfx data).map Prod.fst := by
        rw [normalizeData, mem_keys_foldInsert]
        right; exact ⟨e, he, rfl⟩
      rw [← mem_keys_sortEntries] at hmem
      obtain ⟨e', he', hk⟩ := List.mem_map.1 hmem
      exact ⟨e', he', hk.trans hf⟩

theorem _normalize_dn_self (s : Str) : _normalize_dn s s = s := by
  have h : s.isSuffixOf s = true := by
    rw [List.isSuffixOf_iff_suffix]
  unfold _normalize_dn
  simp [h]

/-- The directory contents after the repopulation step of `start`/`reset`:
core data, then initial data when present. -/
def populatedDir (cfg : Config) : EntriesM :=
  let d1 := addOp cfg.suffix [] (_core_data cfg)
  if cfg.initialData = [] then d1 else addOp cfg.suffix d1 cfg.initialData

theorem mem_keys_populatedDir (cfg : Config) (k : Str) :
    k ∈ (populatedDir cfg).map Prod.fst ↔
      k = cfg.suffix ∨ ∃ e ∈ cfg.initialData, _normalize_dn cfg.suffix e.1 = k := by
  unfold populatedDir
  have hcore : ∀ k', (k' ∈ (addOp cfg.suffix [] (_core_data cfg)).map Prod.fst ↔
      k' = cfg.suffix) := by
    intro k'
    rw [mem_keys_addOp]
    simp only [List.map_nil, List.not_mem_nil, false_or]
    constructor
    · rintro ⟨e, he, hf⟩
      rw [_core_data] at he
      simp only [List.mem_singleton] at he
      subst he
      simpa [_normalize_dn_self] using hf.symm
    · intro h
      have hmemc : cfg.suffix ∈ (_core_data cfg).map Prod.fst := by
        rw [show (_core_data cfg).map Prod.fst = [cfg.suffix] from rfl]
        simp
      obtain ⟨e, he, h1⟩ := List.mem_map.1 hmemc
      refine ⟨e, he, ?_⟩
      rw [h1, _normalize_dn_self]
      exact h.symm
  split
  · rename_i hempty
    rw [hcore]
    simp [hempty]
  · rename_i hne
    rw [mem_keys_addOp, hcore k]

/-! ### Frame lemmas for the lifecycle operations -/

theorem shutdown_clears (st : SrvState) :
    (LdapServer._shutdown st).1.process = none ∧ (LdapServer._shutdown st).1.tempdir = none := by
  obtain ⟨p, t, c, d⟩ := st
  unfold LdapServer._shutdown
  cases p <;> cases t <;> simp

theorem shutdown_ev_term (st : SrvState) (h : st.process ≠ none) :
    Ev.terminated ∈ (LdapServer._shutdown st).2 ∧ Ev.waitedProc ∈ (LdapServer._shutdown st).2 := by
  obtain ⟨p, t, c, d⟩ := st
  unfold LdapServer._shutdown
  cases p with
  | none => exact absurd rfl h
  | some q => cases t <;> simp

theorem shutdown_ev_ws (st : SrvState) (h : st.tempdir ≠ none) :
    Ev.wsDestroyed ∈ (LdapServer._shutdown st).2 := by
  obtain ⟨p, t, c, d⟩ := st
  unfold LdapServer._shutdown
  cases t with
  | none => exact absurd rfl h
  | some w => cases p <;> simp

theorem shutdown_ev_kinds (st : SrvState) :
    ∀ x ∈ (LdapServer._shutdown st).2,
      x = Ev.terminated ∨ x = Ev.waitedProc ∨ x = Ev.wsDestroyed := by
  obtain ⟨p, t, c, d⟩ := st
  unfold LdapServer._shutdown
  cases p <;> cases t <;> simp

theorem controlStart_proc (b : Bool) (st : SrvState) :
    (LdapServer.controlStart b st).1.process = st.process := by
  unfold LdapServer.controlStart; split <;> simp

theorem controlStart_td (b : Bool) (st : SrvState) :
    (LdapServer.controlStart b st).1.tempdir = st.tempdir := by
  unfold LdapServer.controlStart; split <;> simp

theorem controlStart_ev (b : Bool) (st : SrvState) :
    ∀ x ∈ (LdapServer.controlStart b st).2, x = Ev.controlStarted := by
  unfold LdapServer.controlStart; split <;> simp

theorem populateStep_proc (cfg : Config) (st : SrvState) (ev : List Ev) (env : StartEnv) :
    (LdapServer.populateStep cfg st ev env).2.1.process = st.process := by
  unfold LdapServer.populateStep; split_ifs <;> simp

theorem populateStep_td (cfg : Config) (st : SrvState) (ev : List Ev) (env : StartEnv) :
    (LdapServer.populateStep cfg st ev env).2.1.tempdir = st.tempdir := by
  unfold LdapServer.populateStep; split_ifs <;> simp

theorem populateStep_ev (cfg : Config) (st : SrvState) (ev : List Ev) (env : StartEnv) :
    (LdapServer.populateStep cfg st ev env).2.2 = ev := by
  unfold LdapServer.populateStep; split_ifs <;> simp

theorem startBody_spawned_state (cfg : Config) (st : SrvState) (env : StartEnv)
    (h : st.process = none) :
    Ev.spawned ∈ (LdapServer.startBody cfg st env).2.2 →
      (LdapServer.startBody cfg st env).2.1.process ≠ none := by
  obtain ⟨ws, slap, spawn, poll, cs, cd, ac, ai⟩ := env
  have hcp : (LdapServer.controlStart cfg.hasControl st).1.process = none := by
    rw [controlStart_proc]; exact h
  have hcev := controlStart_ev cfg.hasControl st
  simp only [LdapServer.startBody]
  rw [hcp]
  cases ws <;> cases slap <;> cases spawn <;> cases poll <;>
    simp only [Bool.not_true, Bool.not_false, if_true, if_false, Bool.false_eq_true,
      Bool.true_eq_false, ite_true, ite_false] <;>
    intro hmem <;>
    first
      | (exact absurd (hcev _ hmem) (by simp))
      | (exact absurd (hcev _ (by simpa using hmem)) (by simp))
      | (simp_all [populateStep_proc, populateStep_ev])

theorem startBody_ws_state (cfg : Config) (st : SrvState) (env : StartEnv)
    (h : st.process = none) :
    Ev.wsCreated ∈ (LdapServer.startBody cfg st env).2.2 →
      (LdapServer.startBody cfg st env).2.1.tempdir ≠ none := by
  obtain ⟨ws, slap, spawn, poll, cs, cd, ac, ai⟩ := env
  have hcp : (LdapServer.controlStart cfg.hasControl st).1.process = none := by
    rw [controlStart_proc]; exact h
  have hcev := controlStart_ev cfg.hasControl st
  simp only [LdapServer.startBody]
  rw [hcp]
  cases ws <;> cases slap <;> cases spawn <;> cases poll <;>
    simp only [Bool.not_true, Bool.not_false, if_true, if_false, Bool.false_eq_true,
      Bool.true_eq_false, ite_true, ite_false] <;>
    intro hmem <;>
    first
      | (exact absurd (hcev _ hmem) (by simp))
      | (exact absurd (hcev _ (by simpa using hmem)) (by simp))
      | (simp_all [populateStep_td, populateStep_ev])

/-! ### Claim C2 -/

/-- C2: on a stopped controller, every failing `start()` rolls back fully
before re-raising: the final state has no process handle and no workspace
reference; if a process was spawned during the call it was terminated and
waited for; if a workspace was created it was destroyed. -/
theorem start_failure_rollback (cfg : Config) (st : SrvState) (env : StartEnv) (e : PyExc)
    (hstopped : st.process = none)
    (herr : (LdapServer.start cfg st env).1 = .error e) :
    (LdapServer.start cfg st env).2.1.process = none ∧
    (LdapServer.start cfg st env).2.1.tempdir = none ∧
    (Ev.spawned ∈ (LdapServer.start cfg st env).2.2 →
      Ev.terminated ∈ (LdapServer.start cfg st env).2.2 ∧
      Ev.waitedProc ∈ (LdapServer.start cfg st env).2.2) ∧
    (Ev.wsCreated ∈ (LdapServer.start cfg st env).2.2 →
      Ev.wsDestroyed ∈ (LdapServer.start cfg st env).2.2) := by
  rcases hb : LdapServer.startBody cfg st env with ⟨r, st1, ev⟩
  cases r with
  | ok u =>
    have hok : (LdapServer.start cfg st env).1 = .ok () := by
      simp [LdapServer.start, hb]
    rw [hok] at herr
    exact absurd herr (by simp)
  | error e' =>
    have hstart : LdapServer.start cfg st env =
        (.error e', (LdapServer._shutdown st1).1, ev ++ (LdapServer._shutdown st1).2) := by
      simp [LdapServer.start, hb]
    rw [hstart]
    refine ⟨(shutdown_clears st1).1, (shutdown_clears st1).2, ?_, ?_⟩
    · intro hmem
      rcases List.mem_append.1 hmem with hm | hm
      · have h1 := startBody_spawned_state cfg st env hstopped
        rw [hb] at h1
        have hproc : st1.process ≠ none := h1 hm
        have ht := shutdown_ev_term st1 hproc
        exact ⟨List.mem_append_right _ ht.1, List.mem_append_right _ ht.2⟩
      · rcases shutdown_ev_kinds st1 _ hm with h1 | h1 | h1 <;> simp at h1
    · intro hmem
      rcases List.mem_append.1 hmem with hm | hm
      · have h1 := startBody_ws_state cfg st env hstopped
        rw [hb] at h1
        have htd : st1.tempdir ≠ none := h1 hm
        exact List.mem_append_right _ (shutdown_ev_ws st1 htd)
      · rcases shutdown_ev_kinds st1 _ hm with h1 | h1 | h1 <;> simp at h1

/-- Witness for C2: a stopped controller whose configuration validation
(`slaptest`) fails: `start` raises and the final state is fully stopped. -/
theorem start_failure_rollback_witness :
    (LdapServer.start ⟨[], false, []⟩ ⟨none, none, false, []⟩
        ⟨true, false, true, .ready, true, true, true, true⟩).2.1.process = none ∧
    (LdapServer.start ⟨[], false, []⟩ ⟨none, none, false, []⟩
        ⟨true, false, true, .ready, true, true, true, true⟩).2.1.tempdir = none :=
  ⟨(start_failure_rollback ⟨[], false, []⟩ ⟨none, none, false, []⟩
      ⟨true, false, true, .ready, true, true, true, true⟩ .runtimeError rfl rfl).1,
   (start_failure_rollback ⟨[], false, []⟩ ⟨none, none, false, []⟩
      ⟨true, false, true, .ready, true, true, true, true⟩ .runtimeError rfl rfl).2.1⟩

/-! ### Claim C3 -/

theorem populateStep_success (cfg : Config) (st : SrvState) (ev : List Ev) (env : StartEnv)
    (hdir : st.directory = []) (hac : env.addCoreOk = true) (hai : env.addInitialOk = true) :
    LdapServer.populateStep cfg st ev env =
      (.ok (), { st with directory := populatedDir cfg }, ev) := by
  obtain ⟨p0, t0, c0, d0⟩ := st
  simp only at hdir
  subst hdir
  unfold LdapServer.populateStep populatedDir
  rw [hac, hai]
  by_cases hinit : cfg.initialData = [] <;> simp [hinit]

/-- C3: `start()` on a running controller does not create a workspace nor
spawn a process; it keeps the same process handle and workspace, clears the
directory, and repopulates it with the core root entry followed by the
initial data: afterwards the suffix (core) entry is present, every initial
entry is present under its normalized DN, and every other DN is absent. -/
theorem start_running_resets (cfg : Config) (st : SrvState) (env : StartEnv) (p : Nat)
    (hrun : st.process = some p)
    (hcs : env.clearSearchOk = true) (hcd : env.clearDeleteOk = true)
    (hac : env.addCoreOk = true) (hai : env.addInitialOk = true) :
    (LdapServer.start cfg st env).1 = .ok () ∧
    (LdapServer.start cfg st env).2.1.process = some p ∧
    (LdapServer.start cfg st env).2.1.tempdir = st.tempdir ∧
    Ev.spawned ∉ (LdapServer.start cfg st env).2.2 ∧
    Ev.wsCreated ∉ (LdapServer.start cfg st env).2.2 ∧
    (LdapServer.start cfg st env).2.1.directory = populatedDir cfg ∧
    (lookupA (populatedDir cfg) cfg.suffix).isSome = true ∧
    (∀ d0 ∈ cfg.initialData.map Prod.fst,
      (lookupA (populatedDir cfg) (_normalize_dn cfg.suffix d0)).isSome = true) ∧
    (∀ dn, dn ≠ cfg.suffix →
      (∀ d0 ∈ cfg.initialData.map Prod.fst, dn ≠ _normalize_dn cfg.suffix d0) →
      lookupA (populatedDir cfg) dn = none) := by
  have hcp : (LdapServer.controlStart cfg.hasControl st).1.process = some p := by
    rw [controlStart_proc]; exact hrun
  have hbody : LdapServer.startBody cfg st env =
      LdapServer.populateStep cfg
        { (LdapServer.controlStart cfg.hasControl st).1 with directory := [] }
        (LdapServer.controlStart cfg.hasControl st).2 env := by
    simp only [LdapServer.startBody]
    rw [hcp]
    simp [hcs, hcd]
  have hpop := populateStep_success cfg
    { (LdapServer.controlStart cfg.hasControl st).1 with directory := [] }
    (LdapServer.controlStart cfg.hasControl st).2 env rfl hac hai
  have hstart : LdapServer.start cfg st env =
      (.ok (), { (LdapServer.controlStart cfg.hasControl st).1 with directory := populatedDir cfg },
        (LdapServer.controlStart cfg.hasControl st).2) := by
    simp only [LdapServer.start, hbody, hpop]
  rw [hstart]
  refine ⟨rfl, ?_, ?_, ?_, ?_, rfl, ?_, ?_, ?_⟩
  · show (LdapServer.controlStart cfg.hasControl st).1.process = some p
    exact hcp
  · show (LdapServer.controlStart cfg.hasControl st).1.tempdir = st.tempdir
    exact controlStart_td cfg.hasControl st
  · intro hmem
    have := controlStart_ev cfg.hasControl st _ hmem
    simp at this
  · intro hmem
    have := controlStart_ev cfg.hasControl st _ hmem
    simp at this
  · rw [lookupA_isSome_iff, mem_keys_populatedDir]
    left; rfl
  · intro d0 hd0
    rw [lookupA_isSome_iff, mem_keys_populatedDir]
    obtain ⟨e, he, h1⟩ := List.mem_map.1 hd0
    right
    exact ⟨e, he, by rw [h1]⟩
  · intro dn hne hnin
    rw [lookupA_eq_none_iff, mem_keys_populatedDir]
    rintro (h | ⟨e, he, hf⟩)
    · exact hne h
    · exact hnin e.1 (List.mem_map.2 ⟨e, he, rfl⟩) hf.symm

/-- Witness for C3: a running controller with one initial entry under
`dc=a`; a second `start` succeeds, keeps the process, and repopulates. -/
theorem start_running_resets_witness :
    (LdapServer.start ⟨[100, 99, 61, 97], false, [([111, 117, 61, 120], [])]⟩
        ⟨some 7, some 1, false, []⟩ ⟨true, true, true, .ready, true, true, true, true⟩).1 =
      .ok () ∧
    (LdapServer.start ⟨[100, 99, 61, 97], false, [([111, 117, 61, 120], [])]⟩
        ⟨some 7, some 1, false, []⟩ ⟨true, true, true, .ready, true, true, true, true⟩).2.1.process =
      some 7 :=
  ⟨(start_running_resets ⟨[100, 99, 61, 97], false, [([111, 117, 61, 120], [])]⟩
      ⟨some 7, some 1, false, []⟩ ⟨true, true, true, .ready, true, true, true, true⟩ 7
      rfl rfl rfl rfl rfl).1,
   (start_running_resets ⟨[100, 99, 61, 97], false, [([111, 117, 61, 120], [])]⟩
      ⟨some 7, some 1, false, []⟩ ⟨true, true, true, .ready, true, true, true, true⟩ 7
      rfl rfl rfl rfl rfl).2.1⟩

/-! ### Claim C6 -/

/-- C6 (divergence): `GET /control/wait` maps to `wait(5)` and replies 204
when the process exits in time; but on timeout `LdapServer.wait` re-raises
`volatildap.core.TimeoutExpired`, while the handler's `except` clause catches
`subprocess.TimeoutExpired` — a different class — so no 504 response is ever
sent: the exception escapes the handler (`none`). -/
theorem get_wait_timeout_behavior :
    RequestHandler.get_wait true = some 204 ∧
    RequestHandler.get_wait false = none ∧
    LdapServer.wait (some 5) false = .error PyExc.coreTimeoutExpired ∧
    PyExc.coreTimeoutExpired ≠ PyExc.subprocTimeoutExpired :=
  ⟨rfl, rfl, rfl, by decide⟩

/-! ### Claim C7 -/

/-- C7: `get(dn)` distinguishes absence from failure by the search tool's
exit code: 32 is surfaced as `KeyError` (the not-found kind, distinct from
the generic `RuntimeError`), any other non-zero code as `RuntimeError`, and
code 0 with a decodable single-entry output yields exactly that entry. -/
theorem get_exit_code_taxonomy (cfg : Config) (dn : Str) (env : GetEnv) :
    (env.exitCode = 32 → LdapServer.get cfg dn env = .error PyExc.keyError) ∧
    (env.exitCode ≠ 32 → env.exitCode ≠ 0 →
      LdapServer.get cfg dn env = .error PyExc.runtimeError) ∧
    (∀ a, env.exitCode = 0 →
      ldif_to_entries env.stdout = some [(_normalize_dn cfg.suffix dn, a)] →
      LdapServer.get cfg dn env = .ok a) ∧
    PyExc.keyError ≠ PyExc.runtimeError := by
  refine ⟨?_, ?_, ?_, by decide⟩
  · intro h
    simp [LdapServer.get, h]
  · intro h1 h2
    simp [LdapServer.get, h1, h2]
  · intro a h0 hdec
    simp [LdapServer.get, h0, hdec, lookupA]

/-- Witness for C7: exit code 32 yields the not-found error. -/
theorem get_exit_code_taxonomy_witness :
    LdapServer.get ⟨[], false, []⟩ [97] ⟨32, []⟩ = .error PyExc.keyError :=
  (get_exit_code_taxonomy ⟨[], false, []⟩ [97] ⟨32, []⟩).1 rfl

/-! ### Claim C9 -/

/-- Counterexample to C9 as stated: `LdapServer.stop` only runs `_shutdown`,
which never touches the control server; on a running controller with a live
control thread, the thread is still running after `stop()` returns. -/
theorem stop_leaves_control_thread :
    (LdapServer.stop ⟨some 1, some 1, true, []⟩).1.controlThread = true := rfl

/-- C9 (amended): `LdapServer.stop` terminates the process and destroys the
workspace but leaves the control thread exactly as it was and performs no
join; the shutdown-and-join behaviour lives only in `ControlServer.stop`,
which joins and clears the thread when it runs and is a no-op otherwise. -/
theorem stop_control_semantics (st : SrvState) :
    (LdapServer.stop st).1.process = none ∧
    (LdapServer.stop st).1.tempdir = none ∧
    (LdapServer.stop st).1.controlThread = st.controlThread ∧
    Ev.controlJoined ∉ (LdapServer.stop st).2 ∧
    (st.controlThread = true →
      ControlServer.stop st = ({ st with controlThread := false }, [Ev.controlJoined])) ∧
    (st.controlThread = false → ControlServer.stop st = (st, [])) := by
  obtain ⟨p, t, c, d⟩ := st
  unfold LdapServer.stop LdapServer._shutdown ControlServer.stop
  cases p <;> cases t <;> cases c <;> simp

/-- Witness for C9's amended statement. -/
theorem stop_control_semantics_witness :
    (LdapServer.stop ⟨some 1, some 1, false, []⟩).1.process = none ∧
    ControlServer.stop ⟨some 1, some 1, true, []⟩ =
      (⟨some 1, some 1, false, []⟩, [Ev.controlJoined]) :=
  ⟨(stop_control_semantics ⟨some 1, some 1, false, []⟩).1,
   (stop_control_semantics ⟨some 1, some 1, true, []⟩).2.2.2.2.1 rfl⟩

/-! ### Base64 round trip -/

theorem b64ord_chr : ∀ n < 64, b64ord (b64chr n) = some n := by decide

theorem b64chr_ne_61 : ∀ n < 64, b64chr n ≠ 61 := by decide

theorem b64decode_encode : ∀ v : Bytes, (∀ b ∈ v, b < 256) →
    b64decode (b64encode v) = some v
  | [], _ => rfl
  | [a], h => by
    have ha : a < 256 := h a (by simp)
    show b64decode [b64chr (a / 4), b64chr (a % 4 * 16), 61, 61] = some [a]
    unfold b64decode
    rw [b64ord_chr (a / 4) (by omega), b64ord_chr (a % 4 * 16) (by omega)]
    simp
    omega
  | [a, b], h => by
    have ha : a < 256 := h a (by simp)
    have hb : b < 256 := h b (by simp)
    show b64decode
        [b64chr (a / 4), b64chr (a % 4 * 16 + b / 16), b64chr (b % 16 * 4), 61] = some [a, b]
    unfold b64decode
    rw [b64ord_chr (a / 4) (by omega), b64ord_chr (a % 4 * 16 + b / 16) (by omega)]
    have h3 := b64chr_ne_61 (b % 16 * 4) (by omega)
    have h4 := b64ord_chr (b % 16 * 4) (by omega)
    simp [h3, h4]
    omega
  | a :: b :: c :: rest, h => by
    have ha : a < 256 := h a (by simp)
    have hb : b < 256 := h b (by simp)
    have hc : c < 256 := h c (by simp)
    have hr := b64decode_encode rest (fun x hx => h x (by simp [hx]))
    show b64decode
        (b64chr (a / 4) :: b64chr (a % 4 * 16 + b / 16) ::
          b64chr (b % 16 * 4 + c / 64) :: b64chr (c % 64) :: b64encode rest) =
      some (a :: b :: c :: rest)
    unfold b64decode
    rw [b64ord_chr (a / 4) (by omega), b64ord_chr (a % 4 * 16 + b / 16) (by omega)]
    have h3 := b64chr_ne_61 (b % 16 * 4 + c / 64) (by omega)
    have h4 := b64ord_chr (b % 16 * 4 + c / 64) (by omega)
    have h5 := b64chr_ne_61 (c % 64) (by omega)
    have h6 := b64ord_chr (c % 64) (by omega)
    simp [h3, h4, h5, h6, hr]
    refine ⟨by omega, by omega, by omega⟩

/-! ### UTF-8 round trip -/

theorem utf8Aux_ascii_step (b : Nat) (rest : Bytes) (h : b < 128) :
    utf8Aux (b :: rest) 0 0 0 = (utf8Aux rest 0 0 0).map (b :: ·) := by
  conv_lhs => unfold utf8Aux
  rw [if_pos h]

theorem utf8Aux_lead2 (b : Nat) (rest : Bytes) (h1 : ¬ b < 128) (h2 : 194 ≤ b ∧ b < 224) :
    utf8Aux (b :: rest) 0 0 0 = utf8Aux rest 1 (b - 192) 128 := by
  conv_lhs => unfold utf8Aux
  rw [if_neg h1, if_pos h2]

theorem utf8Aux_lead3 (b : Nat) (rest : Bytes) (h1 : ¬ b < 128)
    (h2 : ¬ (194 ≤ b ∧ b < 224)) (h3 : 224 ≤ b ∧ b < 240) :
    utf8Aux (b :: rest) 0 0 0 = utf8Aux rest 2 (b - 224) 2048 := by
  conv_lhs => unfold utf8Aux
  rw [if_neg h1, if_neg h2, if_pos h3]

theorem utf8Aux_lead4 (b : Nat) (rest : Bytes) (h1 : ¬ b < 128)
    (h2 : ¬ (194 ≤ b ∧ b < 224)) (h3 : ¬ (224 ≤ b ∧ b < 240)) (h4 : 240 ≤ b ∧ b < 245) :
    utf8Aux (b :: rest) 0 0 0 = utf8Aux rest 3 (b - 240) 65536 := by
  conv_lhs => unfold utf8Aux
  rw [if_neg h1, if_neg h2, if_neg h3, if_pos h4]

theorem utf8Aux_cont_last (b : Nat) (rest : Bytes) (acc mn : Nat) (hb : 128 ≤ b ∧ b < 192)
    (hok : mn ≤ acc * 64 + (b - 128) ∧
      (acc * 64 + (b - 128) < 55296 ∨ 57344 ≤ acc * 64 + (b - 128)) ∧
      acc * 64 + (b - 128) < 1114112) :
    utf8Aux (b :: rest) 1 acc mn = (utf8Aux rest 0 0 0).map ((acc * 64 + (b - 128)) :: ·) := by
  show utf8Aux (b :: rest) (0 + 1) acc mn = _
  conv_lhs => unfold utf8Aux
  rw [if_pos hb, if_pos rfl, if_pos hok]

theorem utf8Aux_cont_more (b : Nat) (rest : Bytes) (need acc mn : Nat)
    (hb : 128 ≤ b ∧ b < 192) (hne : need ≠ 0) :
    utf8Aux (b :: rest) (need + 1) acc mn = utf8Aux rest need (acc * 64 + (b - 128)) mn := by
  conv_lhs => unfold utf8Aux
  rw [if_pos hb, if_neg hne]

theorem utf8Aux_char (c : Nat) (h : validScalar c = true) (rest : Bytes) :
    utf8Aux (utf8Char c ++ rest) 0 0 0 = (utf8Aux rest 0 0 0).map (c :: ·) := by
  obtain ⟨hlt, hs⟩ := of_decide_eq_true h
  by_cases h1 : c < 128
  · rw [utf8Char_ascii h1]
    exact utf8Aux_ascii_step c rest h1
  · by_cases h2 : c < 2048
    · have hch : utf8Char c = [192 + c / 64, 128 + c % 64] := by
        unfold utf8Char; rw [if_neg h1, if_pos h2]
      rw [hch]
      simp only [List.cons_append, List.nil_append]
      rw [utf8Aux_lead2 _ _ (by omega) (by omega)]
      rw [utf8Aux_cont_last _ _ _ _ (by omega) (by omega)]
      have harith : (192 + c / 64 - 192) * 64 + (128 + c % 64 - 128) = c := by omega
      rw [harith]
    · by_cases h3 : c < 65536
      · have hch : utf8Char c = [224 + c / 4096, 128 + c / 64 % 64, 128 + c % 64] := by
          unfold utf8Char; rw [if_neg h1, if_neg h2, if_pos h3]
        rw [hch]
        simp only [List.cons_append, List.nil_append]
        rw [utf8Aux_lead3 _ _ (by omega) (by omega) (by omega)]
        rw [show (2 : Nat) = 1 + 1 from rfl]
        rw [utf8Aux_cont_more _ _ _ _ _ (by omega) (by omega)]
        rw [utf8Aux_cont_last _ _ _ _ (by omega) (by omega)]
        have harith : ((224 + c / 4096 - 224) * 64 + (128 + c / 64 % 64 - 128)) * 64 +
            (128 + c % 64 - 128) = c := by omega
        rw [harith]
      · have hch : utf8Char c =
            [240 + c / 262144, 128 + c / 4096 % 64, 128 + c / 64 % 64, 128 + c % 64] := by
          unfold utf8Char; rw [if_neg h1, if_neg h2, if_neg h3]
        rw [hch]
        simp only [List.cons_append, List.nil_append]
        rw [utf8Aux_lead4 _ _ (by omega) (by omega) (by omega) (by omega)]
        rw [show (3 : Nat) = 2 + 1 from rfl]
        rw [utf8Aux_cont_more _ _ _ _ _ (by omega) (by omega)]
        rw [show (2 : Nat) = 1 + 1 from rfl]
        rw [utf8Aux_cont_more _ _ _ _ _ (by omega) (by omega)]
        rw [utf8Aux_cont_last _ _ _ _ (by omega) (by omega)]
        have harith : (((240 + c / 262144 - 240) * 64 + (128 + c / 4096 % 64 - 128)) * 64 +
            (128 + c / 64 % 64 - 128)) * 64 + (128 + c % 64 - 128) = c := by omega
        rw [harith]

theorem utf8Decode_utf8Str (s : Str) (h : ∀ c ∈ s, validScalar c = true) :
    utf8Decode (utf8Str s) = some s := by
  induction s with
  | nil => rfl
  | cons c cs ih =>
    show utf8Aux (utf8Char c ++ utf8Str cs) 0 0 0 = some (c :: cs)
    rw [utf8Aux_char c (h c (by simp))]
    have := ih (fun x hx => h x (by simp [hx]))
    rw [show utf8Aux (utf8Str cs) 0 0 0 = utf8Decode (utf8Str cs) from rfl, this]
    rfl

theorem utf8Decode_ascii (l : Bytes) (h : ∀ c ∈ l, c < 128) : utf8Decode l = some l := by
  induction l with
  | nil => rfl
  | cons c cs ih =>
    show utf8Aux (c :: cs) 0 0 0 = some (c :: cs)
    rw [utf8Aux_ascii_step c cs (h c (by simp))]
    have := ih (fun x hx => h x (by simp [hx]))
    rw [show utf8Aux cs 0 0 0 = utf8Decode cs from rfl, this]
    rfl

/-! ### Splitting and joining lines -/

/-- No two adjacent newline characters (so Python `split('\n\n')` finds no
separator inside). -/
def NoNN (l : List Nat) : Prop := List.Chain' (fun a b => ¬ (a = 10 ∧ b = 10)) l

theorem NoNN_of_no10 (l : List Nat) (h : 10 ∉ l) : NoNN l := by
  induction l with
  | nil => exact List.chain'_nil
  | cons c t ih =>
    rw [NoNN, List.chain'_cons']
    refine ⟨?_, ih (fun hm => h (by simp [hm]))⟩
    intro b _
    intro hc
    exact h (by simp [hc.1])

theorem splitNN_of_NoNN (s : List Nat) (h : NoNN s) : splitNN s = [s] := by
  induction s using splitNN.induct with
  | case1 => rfl
  | case2 c => rfl
  | case3 c d rest h1 ih1 =>
    rw [NoNN, List.chain'_cons] at h
    exact absurd h1 h.1
  | case4 c d rest h1 ih1 =>
    rw [NoNN, List.chain'_cons] at h
    rw [splitNN, if_neg h1, ih1 h.2]
    rfl

theorem splitNN_peel (b rest : List Nat) (h : NoNN (b ++ [10])) :
    splitNN (b ++ 10 :: 10 :: rest) = b :: splitNN rest := by
  induction b using splitNN.induct with
  | case1 =>
    show splitNN (10 :: 10 :: rest) = [] :: splitNN rest
    rw [splitNN, if_pos ⟨rfl, rfl⟩]
  | case2 c =>
    simp only [List.cons_append, List.nil_append] at h ⊢
    rw [NoNN, List.chain'_cons] at h
    have hc : c ≠ 10 := by
      intro hc
      exact h.1 ⟨hc, rfl⟩
    rw [splitNN, if_neg (by tauto)]
    rw [show splitNN (10 :: 10 :: rest) = [] :: splitNN rest from by
      rw [splitNN, if_pos ⟨rfl, rfl⟩]]
    rfl
  | case3 c d b' h1 ih1 =>
    simp only [List.cons_append] at h
    rw [NoNN, List.chain'_cons] at h
    exact absurd h1 h.1
  | case4 c d b' h1 ih1 =>
    simp only [List.cons_append] at h ⊢
    rw [NoNN, List.chain'_cons] at h
    rw [splitNN, if_neg h1]
    rw [show d :: (b' ++ 10 :: 10 :: rest) = (d :: b') ++ 10 :: 10 :: rest from rfl]
    rw [ih1 h.2]
    rfl

theorem splitN_no10 (l : List Nat) (h : 10 ∉ l) : splitN l = [l] := by
  induction l with
  | nil => rfl
  | cons c t ih =>
    rw [splitN, if_neg (by intro hc; exact h (by simp [hc]))]
    rw [ih (fun hm => h (by simp [hm]))]
    rfl

theorem splitN_peel (l rest : List Nat) (h : 10 ∉ l) :
    splitN (l ++ 10 :: rest) = l :: splitN rest := by
  induction l with
  | nil =>
    show splitN (10 :: rest) = [] :: splitN rest
    rw [splitN, if_pos rfl]
  | cons c t ih =>
    rw [List.cons_append, splitN, if_neg (by intro hc; exact h (by simp [hc]))]
    rw [ih (fun hm => h (by simp [hm]))]
    rfl

theorem joinNl_cons_ne (l : Str) (ls : List Str) (h : ls ≠ []) :
    joinNl (l :: ls) = l ++ 10 :: joinNl ls := by
  cases ls with
  | nil => exact absurd rfl h
  | cons l2 ls2 => rfl

theorem joinNl_append (xs ys : List Str) (hx : xs ≠ []) (hy : ys ≠ []) :
    joinNl (xs ++ ys) = joinNl xs ++ 10 :: joinNl ys := by
  induction xs with
  | nil => exact absurd rfl hx
  | cons x xs' ih =>
    cases xs' with
    | nil =>
      rw [show ([x] : List Str) ++ ys = x :: ys from rfl]
      rw [joinNl_cons_ne x ys hy]
      rfl
    | cons x2 xs2 =>
      rw [List.cons_append, joinNl_cons_ne x ((x2 :: xs2) ++ ys) (by simp)]
      rw [ih (by simp)]
      rw [joinNl_cons_ne x (x2 :: xs2) (by simp)]
      simp

theorem splitN_joinNl (lines : List Str) (hne : lines ≠ [])
    (h : ∀ l ∈ lines, 10 ∉ l) : splitN (joinNl lines) = lines := by
  induction lines with
  | nil => exact absurd rfl hne
  | cons l ls ih =>
    cases ls with
    | nil => exact splitN_no10 l (h l (by simp))
    | cons l2 ls2 =>
      rw [joinNl_cons_ne l (l2 :: ls2) (by simp)]
      rw [splitN_peel l (joinNl (l2 :: ls2)) (h l (by simp))]
      rw [ih (by simp) (fun x hx => h x (by simp [hx]))]

theorem splitN_joinNl_nl (lines : List Str) (hne : lines ≠ [])
    (h : ∀ l ∈ lines, 10 ∉ l) :
    splitN (joinNl lines ++ [10]) = lines ++ [[]] := by
  induction lines with
  | nil => exact absurd rfl hne
  | cons l ls ih =>
    cases ls with
    | nil =>
      show splitN (l ++ 10 :: []) = [l, []]
      rw [splitN_peel l [] (h l (by simp))]
      rfl
    | cons l2 ls2 =>
      rw [joinNl_cons_ne l (l2 :: ls2) (by simp)]
      rw [show (l ++ 10 :: joinNl (l2 :: ls2)) ++ [10] = l ++ 10 :: (joinNl (l2 :: ls2) ++ [10]) from by simp]
      rw [splitN_peel l _ (h l (by simp))]
      rw [ih (by simp) (fun x hx => h x (by simp [hx]))]
      rfl

/-! ### Stripping -/

theorem dropWhile_head_false (p : Nat → Bool) (l : List Nat)
    (h : ∀ c, l.head? = some c → p c = false) : l.dropWhile p = l := by
  cases l with
  | nil => rfl
  | cons c t =>
    rw [List.dropWhile_cons, h c rfl]
    simp

theorem stripStr_eq_self (s : Str)
    (hh : ∀ c, s.head? = some c → pyWs c = false)
    (hl : ∀ c, s.getLast? = some c → pyWs c = false) : stripStr s = s := by
  unfold stripStr
  rw [dropWhile_head_false pyWs s hh]
  rw [dropWhile_head_false pyWs s.reverse
    (fun c hc => hl c (by rwa [List.head?_reverse s] at hc))]
  exact List.reverse_reverse s

theorem mem_dropWhile_of_mem (p : Nat → Bool) (l : List Nat) (c : Nat)
    (hc : c ∈ l) (hp : p c = false) : c ∈ l.dropWhile p := by
  induction l with
  | nil => simp at hc
  | cons a t ih =>
    rw [List.dropWhile_cons]
    rcases List.mem_cons.1 hc with h1 | h1
    · subst h1
      rw [hp]
      simp
    · cases ha : p a
      · simp [h1]
      · simp [ih h1]

theorem stripStr_ne_nil (s : Str) (c : Nat) (hc : c ∈ s) (hp : pyWs c = false) :
    stripStr s ≠ [] := by
  intro hempty
  unfold stripStr at hempty
  rw [List.reverse_eq_nil_iff] at hempty
  rw [List.dropWhile_eq_nil_iff] at hempty
  have h1 : c ∈ s.dropWhile pyWs := mem_dropWhile_of_mem pyWs s c hc hp
  have h2 : c ∈ (s.dropWhile pyWs).reverse := by simpa using h1
  have := hempty c h2
  rw [this] at hp
  cases hp

/-! ### Facts about encoded-line characters -/

theorem b64chr_facts : ∀ n < 64, b64chr n < 128 ∧ b64chr n ≠ 10 ∧ pyWs (b64chr n) = false ∧
    isWordChar (b64chr n) = true ∨ b64chr n = 43 ∨ b64chr n = 47 := by decide

theorem b64chr_basic : ∀ n < 64, b64chr n < 128 ∧ b64chr n ≠ 10 ∧ pyWs (b64chr n) = false := by
  decide

theorem b64encode_chars : ∀ (v : Bytes), (∀ b ∈ v, b < 256) → ∀ x ∈ b64encode v,
    x = 61 ∨ ∃ n, n < 64 ∧ x = b64chr n
  | [], _, x, hx => by simp [b64encode] at hx
  | [a], hv, x, hx => by
    have ha : a < 256 := hv a (by simp)
    simp only [b64encode, List.mem_cons, List.mem_singleton] at hx
    rcases hx with h | h | h | h
    · right; exact ⟨a / 4, by omega, h⟩
    · right; exact ⟨a % 4 * 16, by omega, h⟩
    · left; exact h
    · left; simp at h; rw [h]
  | [a, b], hv, x, hx => by
    have ha : a < 256 := hv a (by simp)
    have hb : b < 256 := hv b (by simp)
    simp only [b64encode, List.mem_cons, List.mem_singleton] at hx
    rcases hx with h | h | h | h
    · right; exact ⟨a / 4, by omega, h⟩
    · right; exact ⟨a % 4 * 16 + b / 16, by omega, h⟩
    · right; exact ⟨b % 16 * 4, by omega, h⟩
    · left; simp at h; rw [h]
  | a :: b :: c :: rest, hv, x, hx => by
    have ha : a < 256 := hv a (by simp)
    have hb : b < 256 := hv b (by simp)
    have hc : c < 256 := hv c (by simp)
    simp only [b64encode, List.mem_cons] at hx
    rcases hx with h | h | h | h | h
    · right; exact ⟨a / 4, by omega, h⟩
    · right; exact ⟨a % 4 * 16 + b / 16, by omega, h⟩
    · right; exact ⟨b % 16 * 4 + c / 64, by omega, h⟩
    · right; exact ⟨c % 64, by omega, h⟩
    · exact b64encode_chars rest (fun y hy => hv y (by simp [hy])) x h

theorem b64_char_basic (v : Bytes) (hv : ∀ b ∈ v, b < 256) (x : Nat) (hx : x ∈ b64encode v) :
    x < 128 ∧ x ≠ 10 ∧ pyWs x = false := by
  rcases b64encode_chars v hv x hx with h | ⟨n, hn, h⟩
  · subst h; refine ⟨by norm_num, by norm_num, by decide⟩
  · subst h; exact b64chr_basic n hn

theorem b64encode_ne_nil (v : Bytes) (h : v ≠ []) : b64encode v ≠ [] := by
  match v with
  | [] => exact absurd rfl h
  | [a] => simp [b64encode]
  | [a, b] => simp [b64encode]
  | a :: b :: c :: rest => simp [b64encode]

theorem wordChar_facts (c : Nat) (h : isWordChar c = true) :
    c < 128 ∧ c ≠ 10 ∧ pyWs c = false ∧ c ≠ 58 := by
  unfold isWordChar at h
  unfold pyWs
  simp only [Bool.or_eq_true, Bool.and_eq_true, decide_eq_true_eq, beq_iff_eq] at h
  simp only [Bool.or_eq_false_iff, Bool.and_eq_false_iff, beq_eq_false_iff_ne, ne_eq,
    decide_eq_false_iff_not]
  omega

theorem memBase_no_nl {c : Nat} (h : memBase c = true) : c ≠ 10 := memBase_ne_nl h

/-! ### Parsing encoded lines -/

theorem takeWhile_word_append (name rest : Str)
    (hn : ∀ c ∈ name, isWordChar c = true)
    (hr : ∀ c, rest.head? = some c → isWordChar c = false) :
    (name ++ rest).takeWhile isWordChar = name ∧ (name ++ rest).dropWhile isWordChar = rest := by
  induction name with
  | nil =>
    simp only [List.nil_append]
    cases rest with
    | nil => exact ⟨rfl, rfl⟩
    | cons c t =>
      rw [List.takeWhile_cons, List.dropWhile_cons, hr c rfl]
      simp
  | cons c name' ih =>
    have hc := hn c (by simp)
    rw [List.cons_append, List.takeWhile_cons, List.dropWhile_cons, hc]
    obtain ⟨h1, h2⟩ := ih (fun x hx => hn x (by simp [hx])) 
    simp [h1, h2]

theorem parseLine_lit (name payload : Str)
    (hn : name ≠ []) (hw : ∀ c ∈ name, isWordChar c = true)
    (hp1 : payload ≠ []) (hplast : ∀ c, payload.getLast? = some c → pyWs c = false) :
    parseLine (name ++ 58 :: 32 :: payload) = some (name, false, payload) := by
  have hstrip : stripStr (name ++ 58 :: 32 :: payload) = name ++ 58 :: 32 :: payload := by
    apply stripStr_eq_self
    · intro c hc
      have hmem : c ∈ name := by
        cases name with
        | nil => exact absurd rfl hn
        | cons a t =>
          simp only [List.cons_append, List.head?_cons, Option.some.injEq] at hc
          subst hc
          simp
      exact (wordChar_facts c (hw c hmem)).2.2.1
    · intro c hc
      rw [show name ++ 58 :: 32 :: payload = (name ++ [58, 32]) ++ payload from by simp] at hc
      rw [List.getLast?_append_of_ne_nil _ hp1] at hc
      exact hplast c hc
  obtain ⟨ht, hd⟩ := takeWhile_word_append name (58 :: 32 :: payload) hw
    (fun c hc => by simp at hc; subst hc; decide)
  simp only [parseLine, hstrip, ht, hd]
  rw [if_neg hn]
  rw [if_neg (by simp [List.take])]
  rw [if_pos (by simp [List.take])]
  simp

theorem parseLine_ext (name payload : Str)
    (hn : name ≠ []) (hw : ∀ c ∈ name, isWordChar c = true)
    (hp1 : payload ≠ []) (hplast : ∀ c, payload.getLast? = some c → pyWs c = false) :
    parseLine (name ++ 58 :: 58 :: 32 :: payload) = some (name, true, payload) := by
  have hstrip : stripStr (name ++ 58 :: 58 :: 32 :: payload) = name ++ 58 :: 58 :: 32 :: payload := by
    apply stripStr_eq_self
    · intro c hc
      have hmem : c ∈ name := by
        cases name with
        | nil => exact absurd rfl hn
        | cons a t =>
          simp only [List.cons_append, List.head?_cons, Option.some.injEq] at hc
          subst hc
          simp
      exact (wordChar_facts c (hw c hmem)).2.2.1
    · intro c hc
      rw [show name ++ 58 :: 58 :: 32 :: payload = (name ++ [58, 58, 32]) ++ payload from by simp] at hc
      rw [List.getLast?_append_of_ne_nil _ hp1] at hc
      exact hplast c hc
  obtain ⟨ht, hd⟩ := takeWhile_word_append name (58 :: 58 :: 32 :: payload) hw
    (fun c hc => by simp at hc; subst hc; decide)
  simp only [parseLine, hstrip, ht, hd]
  rw [if_neg hn]
  rw [if_pos (by simp [List.take])]
  simp

/-! ### Snapshot validity (the well-formedness required by §4.1 round tripping)

A snapshot is valid when: DNs are distinct, non-empty, made of Unicode scalar
values, and (when emitted literally) not ending in one of the four
base-alphabet control characters 28–31 that Python's `strip()` removes;
attribute names are non-empty ASCII `\w` words other than `dn`, distinct
within an entry; every attribute has at least one value; and every value is a
non-empty byte string which, when emitted literally, does not end in one of
the bytes 28–31. -/

/-- Validity of one attribute value. -/
def validValueB (v : Bytes) : Bool :=
  decide (v ≠ []) && v.all (fun b => decide (b < 256)) &&
  (!(v.all memBase) || !(pyWs ((v.getLast?).getD 0)))

/-- Validity of one attribute name. -/
def validNameB (n : Str) : Bool :=
  decide (n ≠ []) && n.all isWordChar && decide (n ≠ dnKey)

/-- Validity of a DN. -/
def validDnB (dn : Str) : Bool :=
  decide (dn ≠ []) && dn.all validScalar &&
  (!(dn.all memBase) || !(pyWs ((dn.getLast?).getD 0)))

/-- Validity of an entry's attribute map. -/
def validAttrsB (attrs : AttrsB) : Bool :=
  decide ((attrs.map Prod.fst).Nodup) &&
  attrs.all (fun av => validNameB av.1 && decide (av.2 ≠ []) && av.2.all validValueB)

/-- Validity of a whole snapshot. -/
def validSnapshot (S : EntriesB) : Bool :=
  decide ((S.map Prod.fst).Nodup) && S.all (fun e => validDnB e.1 && validAttrsB e.2)

theorem validValueB_spec (v : Bytes) (h : validValueB v = true) :
    v ≠ [] ∧ (∀ b ∈ v, b < 256) ∧
      (v.all memBase = true → ∀ c, v.getLast? = some c → pyWs c = false) := by
  unfold validValueB at h
  simp only [Bool.and_eq_true, Bool.or_eq_true, Bool.not_eq_true', decide_eq_true_eq,
    List.all_eq_true] at h
  refine ⟨h.1.1, fun b hb => h.1.2 b hb, ?_⟩
  intro hall c hc
  rcases h.2 with h2 | h2
  · rw [hall] at h2; cases h2
  · rw [hc] at h2
    exact h2

theorem validNameB_spec (n : Str) (h : validNameB n = true) :
    n ≠ [] ∧ (∀ c ∈ n, isWordChar c = true) ∧ n ≠ dnKey := by
  unfold validNameB at h
  simp only [Bool.and_eq_true, decide_eq_true_eq, List.all_eq_true] at h
  exact ⟨h.1.1, h.1.2, h.2⟩

theorem validDnB_spec (dn : Str) (h : validDnB dn = true) :
    dn ≠ [] ∧ (∀ c ∈ dn, validScalar c = true) ∧
      (dn.all memBase = true → ∀ c, dn.getLast? = some c → pyWs c = false) := by
  unfold validDnB at h
  simp only [Bool.and_eq_true, Bool.or_eq_true, Bool.not_eq_true', decide_eq_true_eq,
    List.all_eq_true] at h
  refine ⟨h.1.1, h.1.2, ?_⟩
  intro hall c hc
  rcases h.2 with h2 | h2
  · rw [hall] at h2; cases h2
  · rw [hc] at h2
    exact h2

theorem validAttrsB_spec (attrs : AttrsB) (h : validAttrsB attrs = true) :
    (attrs.map Prod.fst).Nodup ∧
      ∀ av ∈ attrs, validNameB av.1 = true ∧ av.2 ≠ [] ∧ ∀ v ∈ av.2, validValueB v = true := by
  unfold validAttrsB at h
  simp only [Bool.and_eq_true, decide_eq_true_eq, List.all_eq_true] at h
  exact ⟨h.1, fun av hav => ⟨(h.2 av hav).1.1, (h.2 av hav).1.2, (h.2 av hav).2⟩⟩

theorem validSnapshot_spec (S : EntriesB) (h : validSnapshot S = true) :
    (S.map Prod.fst).Nodup ∧ ∀ e ∈ S, validDnB e.1 = true ∧ validAttrsB e.2 = true := by
  unfold validSnapshot at h
  simp only [Bool.and_eq_true, decide_eq_true_eq, List.all_eq_true] at h
  exact h

/-! ### The encoded lines of a valid entry -/

/-- The bytes under which a DN travels through the interchange text: itself
when emitted literally, its UTF-8 encoding when base64-encoded. -/
def dnPayload (dn : Str) : Bytes := if dn.all memBase then dn else utf8Str dn

theorem ldif_encode_bytes (a : Str) (v : Bytes) :
    ldif_encode a (.bytes v) =
      if v.all memBase then a ++ 58 :: 32 :: v else a ++ 58 :: 58 :: 32 :: b64encode v := rfl

theorem ldif_encode_text (a sv : Str) :
    ldif_encode a (.text sv) =
      if sv.any (fun c => !memBase c) then a ++ 58 :: 58 :: 32 :: b64encode (utf8Str sv)
      else a ++ 58 :: 32 :: sv := rfl

theorem encode_value_line (a : Str) (v : Bytes)
    (hname : validNameB a = true) (hv : validValueB v = true) :
    (∀ x ∈ ldif_encode a (.bytes v), x < 128 ∧ x ≠ 10) ∧
    ldif_encode a (.bytes v) ≠ [] ∧
    ∀ acc, addLine acc (ldif_encode a (.bytes v)) = some (appendValue acc a v) := by
  obtain ⟨hn1, hn2, _⟩ := validNameB_spec a hname
  obtain ⟨hv1, hv2, hv3⟩ := validValueB_spec v hv
  have hnehead : ∀ rest : Str, stripStr (a ++ rest) ≠ [] := by
    intro rest
    cases a with
    | nil => exact absurd rfl hn1
    | cons c t =>
      exact stripStr_ne_nil _ c (by simp) (wordChar_facts c (hn2 c (by simp))).2.2.1
  rw [ldif_encode_bytes]
  cases hall : v.all memBase with
  | true =>
    rw [if_pos rfl]
    have hchars : ∀ x ∈ a ++ 58 :: 32 :: v, x < 128 ∧ x ≠ 10 := by
      intro x hx
      rcases List.mem_append.1 hx with h1 | h1
      · have := wordChar_facts x (hn2 x h1); omega
      · rcases List.mem_cons.1 h1 with h2 | h2
        · omega
        · rcases List.mem_cons.1 h2 with h3 | h3
          · omega
          · have := (memBase_iff x).1 (List.all_eq_true.1 hall x h3); omega
    refine ⟨hchars, by cases a with | nil => exact absurd rfl hn1 | cons c t => simp, ?_⟩
    intro acc
    have hparse := parseLine_lit a v hn1 hn2 hv1 (hv3 hall)
    simp [addLine, hnehead (58 :: 32 :: v), hparse]
  | false =>
    rw [if_neg Bool.false_ne_true]
    have hb64ne : b64encode v ≠ [] := b64encode_ne_nil v hv1
    have hchars : ∀ x ∈ a ++ 58 :: 58 :: 32 :: b64encode v, x < 128 ∧ x ≠ 10 := by
      intro x hx
      rcases List.mem_append.1 hx with h1 | h1
      · have := wordChar_facts x (hn2 x h1); omega
      · rcases List.mem_cons.1 h1 with h2 | h2
        · omega
        · rcases List.mem_cons.1 h2 with h3 | h3
          · omega
          · rcases List.mem_cons.1 h3 with h4 | h4
            · omega
            · have := b64_char_basic v hv2 x h4
              exact ⟨this.1, this.2.1⟩
    refine ⟨hchars, by cases a with | nil => exact absurd rfl hn1 | cons c t => simp, ?_⟩
    intro acc
    have hparse := parseLine_ext a (b64encode v) hn1 hn2 hb64ne
      (fun c hc => (b64_char_basic v hv2 c (List.mem_of_mem_getLast? hc)).2.2)
    simp [addLine, hnehead (58 :: 58 :: 32 :: b64encode v), hparse, b64decode_encode v hv2]

theorem any_not_eq_not_all (l : List Nat) :
    l.any (fun c => !memBase c) = !l.all memBase := by
  induction l with
  | nil => rfl
  | cons c t ih => simp [List.any_cons, List.all_cons, ih, Bool.not_and]

theorem utf8Char_ne_nil (c : Nat) : utf8Char c ≠ [] := by
  unfold utf8Char
  split
  · simp
  split
  · simp
  split
  · simp
  · simp

theorem utf8Char_lt256 (c : Nat) (h : validScalar c = true) : ∀ x ∈ utf8Char c, x < 256 := by
  have hlt : c < 1114112 := (of_decide_eq_true h).1
  intro x hx
  unfold utf8Char at hx
  split at hx
  · simp at hx; omega
  split at hx
  · simp at hx; rcases hx with h1 | h1 <;> omega
  split at hx
  · simp at hx; rcases hx with h1 | h1 | h1 <;> omega
  · simp at hx; rcases hx with h1 | h1 | h1 | h1 <;> omega

theorem utf8Str_lt256 (s : Str) (h : ∀ c ∈ s, validScalar c = true) :
    ∀ x ∈ utf8Str s, x < 256 := by
  induction s with
  | nil => simp [utf8Str]
  | cons c t ih =>
    intro x hx
    rcases List.mem_append.1 hx with h1 | h1
    · exact utf8Char_lt256 c (h c (by simp)) x h1
    · exact ih (fun y hy => h y (by simp [hy])) x h1

theorem utf8Str_ne_nil (s : Str) (h : s ≠ []) : utf8Str s ≠ [] := by
  cases s with
  | nil => exact absurd rfl h
  | cons c t =>
    show utf8Char c ++ utf8Str t ≠ []
    simp [utf8Char_ne_nil c]

theorem encode_dn_line (dn : Str) (hdn : validDnB dn = true) :
    (∀ x ∈ ldif_encode dnKey (.text dn), x < 128 ∧ x ≠ 10) ∧
    ldif_encode dnKey (.text dn) ≠ [] ∧
    utf8Decode (dnPayload dn) = some dn ∧
    ∀ acc, addLine acc (ldif_encode dnKey (.text dn)) =
      some (appendValue acc dnKey (dnPayload dn)) := by
  obtain ⟨hd1, hd2, hd3⟩ := validDnB_spec dn hdn
  have hnehead : ∀ rest : Str, stripStr (dnKey ++ rest) ≠ [] := by
    intro rest
    exact stripStr_ne_nil _ 100 (by simp [dnKey]) (by decide)
  rw [ldif_encode_text, any_not_eq_not_all]
  unfold dnPayload
  cases hall : dn.all memBase with
  | true =>
    rw [if_neg (by decide), if_pos rfl]
    have hmem : ∀ c ∈ dn, memBase c = true := List.all_eq_true.1 hall
    have hchars : ∀ x ∈ dnKey ++ 58 :: 32 :: dn, x < 128 ∧ x ≠ 10 := by
      intro x hx
      rcases List.mem_append.1 hx with h1 | h1
      · simp [dnKey] at h1; rcases h1 with h1 | h1 <;> omega
      · rcases List.mem_cons.1 h1 with h2 | h2
        · omega
        · rcases List.mem_cons.1 h2 with h3 | h3
          · omega
          · have := (memBase_iff x).1 (hmem x h3); omega
    refine ⟨hchars, by simp [dnKey], ?_, ?_⟩
    · exact utf8Decode_ascii dn (fun c hc => memBase_lt_128 (hmem c hc))
    · intro acc
      have hparse := parseLine_lit dnKey dn (by decide) (by decide) hd1 (hd3 hall)
      simp [addLine, hnehead (58 :: 32 :: dn), hparse]
  | false =>
    rw [if_pos (by decide : (!false) = true), if_neg (by decide : ¬ (false = true))]
    have hui : ∀ x ∈ utf8Str dn, x < 256 := utf8Str_lt256 dn hd2
    have hune : utf8Str dn ≠ [] := utf8Str_ne_nil dn hd1
    have hb64ne : b64encode (utf8Str dn) ≠ [] := b64encode_ne_nil _ hune
    have hchars : ∀ x ∈ dnKey ++ 58 :: 58 :: 32 :: b64encode (utf8Str dn), x < 128 ∧ x ≠ 10 := by
      intro x hx
      rcases List.mem_append.1 hx with h1 | h1
      · simp [dnKey] at h1; rcases h1 with h1 | h1 <;> omega
      · rcases List.mem_cons.1 h1 with h2 | h2
        · omega
        · rcases List.mem_cons.1 h2 with h3 | h3
          · omega
          · rcases List.mem_cons.1 h3 with h4 | h4
            · omega
            · have := b64_char_basic _ hui x h4
              exact ⟨this.1, this.2.1⟩
    refine ⟨hchars, by simp [dnKey], ?_, ?_⟩
    · exact utf8Decode_utf8Str dn hd2
    · intro acc
      have hparse := parseLine_ext dnKey (b64encode (utf8Str dn)) (by decide) (by decide) hb64ne
        (fun c hc => (b64_char_basic _ hui c (List.mem_of_mem_getLast? hc)).2.2)
      simp [addLine, hnehead (58 :: 58 :: 32 :: b64encode (utf8Str dn)), hparse,
        b64decode_encode _ hui]

/-! ### Assembling the attribute map from a block's lines -/

theorem appendValue_not_mem (acc : AttrsB) (a : Str) (v : Bytes)
    (h : a ∉ acc.map Prod.fst) : appendValue acc a v = acc ++ [(a, [v])] := by
  induction acc with
  | nil => rfl
  | cons e rest ih =>
    obtain ⟨k, vs⟩ := e
    have hk : k ≠ a := by
      intro hk
      exact h (by simp [hk])
    rw [show appendValue ((k, vs) :: rest) a v =
      (if k = a then (k, vs ++ [v]) :: rest else (k, vs) :: appendValue rest a v) from rfl]
    rw [if_neg hk, ih (fun hm => h (by simp [hm]))]
    rfl

theorem appendValue_last (acc : AttrsB) (a : Str) (vs : List Bytes) (v : Bytes)
    (h : a ∉ acc.map Prod.fst) :
    appendValue (acc ++ [(a, vs)]) a v = acc ++ [(a, vs ++ [v])] := by
  induction acc with
  | nil =>
    show appendValue [(a, vs)] a v = [(a, vs ++ [v])]
    rw [show appendValue [(a, vs)] a v =
      (if a = a then (a, vs ++ [v]) :: [] else (a, vs) :: appendValue [] a v) from rfl]
    rw [if_pos rfl]
  | cons e rest ih =>
    obtain ⟨k, vs'⟩ := e
    have hk : k ≠ a := by
      intro hk
      exact h (by simp [hk])
    rw [List.cons_append]
    rw [show appendValue ((k, vs') :: (rest ++ [(a, vs)])) a v =
      (if k = a then (k, vs' ++ [v]) :: (rest ++ [(a, vs)])
        else (k, vs') :: appendValue (rest ++ [(a, vs)]) a v) from rfl]
    rw [if_neg hk, ih (fun hm => h (by simp [hm]))]
    rfl

theorem assembleValsAux (a : Str) (vs0 : List Bytes) (vs : List Bytes) (acc : AttrsB)
    (ls : List Str) (hname : validNameB a = true) (hvs : ∀ v ∈ vs, validValueB v = true)
    (hmem : a ∉ acc.map Prod.fst) :
    assembleFrom (acc ++ [(a, vs0)]) (vs.map (fun v => ldif_encode a (.bytes v)) ++ ls) =
      assembleFrom (acc ++ [(a, vs0 ++ vs)]) ls := by
  induction vs generalizing vs0 with
  | nil => simp
  | cons v vs' ih =>
    rw [List.map_cons, List.cons_append]
    have hline := (encode_value_line a v hname (hvs v (by simp))).2.2 (acc ++ [(a, vs0)])
    rw [show assembleFrom (acc ++ [(a, vs0)])
        (ldif_encode a (.bytes v) :: (vs'.map (fun v => ldif_encode a (.bytes v)) ++ ls)) =
      (match addLine (acc ++ [(a, vs0)]) (ldif_encode a (.bytes v)) with
        | none => none
        | some acc2 => assembleFrom acc2 (vs'.map (fun v => ldif_encode a (.bytes v)) ++ ls))
      from rfl]
    rw [hline, appendValue_last acc a vs0 v hmem]
    rw [show (match some (acc ++ [(a, vs0 ++ [v])]) with
        | none => none
        | some acc2 => assembleFrom acc2 (vs'.map (fun v => ldif_encode a (.bytes v)) ++ ls)) =
      assembleFrom (acc ++ [(a, vs0 ++ [v])]) (vs'.map (fun v => ldif_encode a (.bytes v)) ++ ls)
      from rfl]
    rw [ih (vs0 ++ [v]) (fun x hx => hvs x (by simp [hx]))]
    simp

theorem assembleVals (a : Str) (vs : List Bytes) (acc : AttrsB) (ls : List Str)
    (hname : validNameB a = true) (hvs : ∀ v ∈ vs, validValueB v = true)
    (hne : vs ≠ []) (hmem : a ∉ acc.map Prod.fst) :
    assembleFrom acc (vs.map (fun v => ldif_encode a (.bytes v)) ++ ls) =
      assembleFrom (acc ++ [(a, vs)]) ls := by
  cases vs with
  | nil => exact absurd rfl hne
  | cons v vs' =>
    rw [List.map_cons, List.cons_append]
    have hline := (encode_value_line a v hname (hvs v (by simp))).2.2 acc
    rw [show assembleFrom acc
        (ldif_encode a (.bytes v) :: (vs'.map (fun v => ldif_encode a (.bytes v)) ++ ls)) =
      (match addLine acc (ldif_encode a (.bytes v)) with
        | none => none
        | some acc2 => assembleFrom acc2 (vs'.map (fun v => ldif_encode a (.bytes v)) ++ ls))
      from rfl]
    rw [hline, appendValue_not_mem acc a v hmem]
    rw [show (match some (acc ++ [(a, [v])]) with
        | none => none
        | some acc2 => assembleFrom acc2 (vs'.map (fun v => ldif_encode a (.bytes v)) ++ ls)) =
      assembleFrom (acc ++ [(a, [v])]) (vs'.map (fun v => ldif_encode a (.bytes v)) ++ ls)
      from rfl]
    rw [assembleValsAux a [v] vs' acc ls hname (fun x hx => hvs x (by simp [hx])) hmem]
    rfl

/-- The value lines of a byte-valued attribute map. -/
def attrLinesB : AttrsB → List Str
  | [] => []
  | (a, vs) :: rest => vs.map (fun v => ldif_encode a (.bytes v)) ++ attrLinesB rest

theorem attrLines_map_bytes (attrs : AttrsB) :
    attrLines (attrs.map (fun av => (av.1, av.2.map LdifValue.bytes))) = attrLinesB attrs := by
  induction attrs with
  | nil => rfl
  | cons av rest ih =>
    obtain ⟨a, vs⟩ := av
    show (vs.map LdifValue.bytes).map (fun v => ldif_encode a v) ++
        attrLines (rest.map (fun av => (av.1, av.2.map LdifValue.bytes))) =
      vs.map (fun v => ldif_encode a (.bytes v)) ++ attrLinesB rest
    rw [List.map_map, ih]
    rfl

theorem assembleAttrs (attrs : AttrsB) (acc : AttrsB) (ls : List Str)
    (hv : ∀ av ∈ attrs, validNameB av.1 = true ∧ av.2 ≠ [] ∧ ∀ v ∈ av.2, validValueB v = true)
    (hnd : (attrs.map Prod.fst).Nodup)
    (hdisj : ∀ k ∈ attrs.map Prod.fst, k ∉ acc.map Prod.fst) :
    assembleFrom acc (attrLinesB attrs ++ ls) = assembleFrom (acc ++ attrs) ls := by
  induction attrs generalizing acc with
  | nil => simp [attrLinesB]
  | cons av rest ih =>
    obtain ⟨a, vs⟩ := av
    obtain ⟨hname, hvne, hvall⟩ := hv (a, vs) (by simp)
    have hndc : a ∉ rest.map Prod.fst ∧ (rest.map Prod.fst).Nodup := by
      simpa using hnd
    rw [show attrLinesB ((a, vs) :: rest) =
      vs.map (fun v => ldif_encode a (.bytes v)) ++ attrLinesB rest from rfl]
    rw [List.append_assoc]
    rw [assembleVals a vs acc (attrLinesB rest ++ ls) hname hvall hvne
      (hdisj a (by simp))]
    rw [ih (acc ++ [(a, vs)]) (fun av hav => hv av (by simp [hav])) hndc.2 ?_]
    · rw [show (acc ++ [(a, vs)]) ++ rest = acc ++ ((a, vs) :: rest) from by simp]
    · intro k hk hkacc
      rw [List.map_append, List.mem_append] at hkacc
      rcases hkacc with h1 | h1
      · exact hdisj k (by simp [hk]) h1
      · simp only [List.map_cons, List.map_nil, List.mem_singleton] at h1
        rw [h1] at hk
        exact hndc.1 hk

/-! ### Sorting commutes with changing the value payloads -/

theorem orderedInsert_attr_map {β γ : Type} (f : β → γ) (e : Str × β) (l : List (Str × β)) :
    List.orderedInsert (fun x y => strLe x.1 y.1 = true) (e.1, f e.2)
        (l.map (fun x => (x.1, f x.2))) =
      (List.orderedInsert (fun x y => strLe x.1 y.1 = true) e l).map
        (fun x => (x.1, f x.2)) := by
  induction l with
  | nil => rfl
  | cons x t ih =>
    by_cases h : strLe e.1 x.1 = true
    · rw [List.map_cons, List.orderedInsert, List.orderedInsert, if_pos h, if_pos h]
      rfl
    · rw [List.map_cons, List.orderedInsert, List.orderedInsert, if_neg h, if_neg h]
      rw [List.map_cons, ih]

theorem sortAttrs_map_val {β γ : Type} (f : β → γ) (l : List (Str × β)) :
    sortAttrs (l.map (fun x => (x.1, f x.2))) =
      (sortAttrs l).map (fun x => (x.1, f x.2)) := by
  unfold sortAttrs
  induction l with
  | nil => rfl
  | cons e t ih =>
    rw [List.map_cons, List.insertionSort, List.insertionSort, ih]
    exact orderedInsert_attr_map f e (t.insertionSort (fun x y => strLe x.1 y.1 = true))

theorem orderedInsert_entry_map {β γ : Type} (f : β → γ) (e : Str × β) (l : List (Str × β)) :
    List.orderedInsert entryLe (e.1, f e.2) (l.map (fun x => (x.1, f x.2))) =
      (List.orderedInsert entryLe e l).map (fun x => (x.1, f x.2)) := by
  induction l with
  | nil => rfl
  | cons x t ih =>
    by_cases h : entryLe e x
    · have h1 : entryLe (e.1, f e.2) (x.1, f x.2) := h
      rw [List.map_cons, List.orderedInsert, List.orderedInsert, if_pos h1, if_pos h]
      rfl
    · have h1 : ¬ entryLe (e.1, f e.2) (x.1, f x.2) := h
      rw [List.map_cons, List.orderedInsert, List.orderedInsert, if_neg h1, if_neg h]
      rw [List.map_cons, ih]

theorem sortEntries_map_val {β γ : Type} (f : β → γ) (l : List (Str × β)) :
    sortEntries (l.map (fun x => (x.1, f x.2))) =
      (sortEntries l).map (fun x => (x.1, f x.2)) := by
  unfold sortEntries
  induction l with
  | nil => rfl
  | cons e t ih =>
    rw [List.map_cons, List.insertionSort, List.insertionSort, ih]
    exact orderedInsert_entry_map f e (t.insertionSort entryLe)

/-! ### Processing one encoded entry block -/

/-- An entry's attribute map injected into the encoder value type. -/
def mixedAttrs (attrs : AttrsB) : AttrsM :=
  attrs.map (fun av => (av.1, av.2.map LdifValue.bytes))

/-- The non-blank lines of one entry's block. -/
def blockLines (e : Str × AttrsM) : List Str :=
  ldif_encode dnKey (.text e.1) :: attrLines (sortAttrs e.2)

/-- The text of one entry's block (its lines joined by newlines). -/
def blockOf (e : Str × AttrsM) : Str := joinNl (blockLines e)

theorem mem_attrLinesB (attrs : AttrsB) (l : Str) :
    l ∈ attrLinesB attrs ↔ ∃ av ∈ attrs, ∃ v ∈ av.2, l = ldif_encode av.1 (.bytes v) := by
  induction attrs with
  | nil => simp [attrLinesB]
  | cons av rest ih =>
    obtain ⟨a, vs⟩ := av
    rw [show attrLinesB ((a, vs) :: rest) =
      vs.map (fun v => ldif_encode a (.bytes v)) ++ attrLinesB rest from rfl]
    simp only [List.mem_append, List.mem_map, ih, List.mem_cons]
    constructor
    · rintro (⟨v, hv, rfl⟩ | ⟨av, hav, v, hv, rfl⟩)
      · exact ⟨(a, vs), Or.inl rfl, v, hv, rfl⟩
      · exact ⟨av, Or.inr hav, v, hv, rfl⟩
    · rintro ⟨av, hav | hav, v, hv, rfl⟩
      · subst hav
        exact Or.inl ⟨v, hv, rfl⟩
      · exact Or.inr ⟨av, hav, v, hv, rfl⟩

theorem entryLines_eq (e : Str × AttrsM) : entryLines e = blockLines e ++ [blankLine] := rfl

theorem assembleFrom_cons (acc : AttrsB) (l : Str) (ls : List Str) :
    assembleFrom acc (l :: ls) =
      match addLine acc l with
      | none => none
      | some acc2 => assembleFrom acc2 ls := rfl

theorem assembleFrom_blank (acc : AttrsB) : assembleFrom acc [[]] = some acc := rfl

theorem sortAttrs_valid (attrs : AttrsB) (hattrs : validAttrsB attrs = true) :
    ((sortAttrs attrs).map Prod.fst).Nodup ∧
      ∀ av ∈ sortAttrs attrs,
        validNameB av.1 = true ∧ av.2 ≠ [] ∧ ∀ v ∈ av.2, validValueB v = true := by
  obtain ⟨hnd, hv⟩ := validAttrsB_spec attrs hattrs
  have hperm : List.Perm (sortAttrs attrs) attrs := by
    unfold sortAttrs
    exact List.perm_insertionSort _ attrs
  constructor
  · exact (hperm.map Prod.fst).nodup_iff.2 hnd
  · intro av hav
    exact hv av (hperm.mem_iff.1 hav)

theorem processEntry_block (dn : Str) (attrs : AttrsB) (tr : Bool)
    (hdn : validDnB dn = true) (hattrs : validAttrsB attrs = true) :
    processEntry (blockOf (dn, mixedAttrs attrs) ++ (if tr then [10] else [])) =
      some (dn, sortAttrs attrs) := by
  obtain ⟨hsnd, hsv⟩ := sortAttrs_valid attrs hattrs
  obtain ⟨hdnchars, hdnne, hdndec, hdnadd⟩ := encode_dn_line dn hdn
  have hsattrs : sortAttrs (mixedAttrs attrs) = mixedAttrs (sortAttrs attrs) :=
    sortAttrs_map_val (List.map LdifValue.bytes) attrs
  have hblock : blockLines (dn, mixedAttrs attrs) =
      ldif_encode dnKey (.text dn) :: attrLinesB (sortAttrs attrs) := by
    show ldif_encode dnKey (.text dn) :: attrLines (sortAttrs (mixedAttrs attrs)) = _
    rw [hsattrs]
    rw [show mixedAttrs (sortAttrs attrs) =
      (sortAttrs attrs).map (fun av => (av.1, av.2.map LdifValue.bytes)) from rfl]
    rw [attrLines_map_bytes]
  have hlinefacts : ∀ l ∈ blockLines (dn, mixedAttrs attrs),
      l ≠ [] ∧ ∀ x ∈ l, x < 128 ∧ x ≠ 10 := by
    intro l hl
    rw [hblock] at hl
    rcases List.mem_cons.1 hl with h1 | h1
    · subst h1
      exact ⟨hdnne, hdnchars⟩
    · obtain ⟨av, hav, v, hv, rfl⟩ := (mem_attrLinesB _ _).1 h1
      obtain ⟨hname, _, hvall⟩ := hsv av hav
      obtain ⟨hc, hne, _⟩ := encode_value_line av.1 v hname (hvall v hv)
      exact ⟨hne, hc⟩
  have hno10 : ∀ l ∈ blockLines (dn, mixedAttrs attrs), 10 ∉ l := by
    intro l hl hx
    exact ((hlinefacts l hl).2 10 hx).2 rfl
  have hsplit : splitN (blockOf (dn, mixedAttrs attrs) ++ (if tr then [10] else [])) =
      blockLines (dn, mixedAttrs attrs) ++ (if tr then [[]] else []) := by
    cases tr with
    | true =>
      rw [if_pos rfl, if_pos rfl, blockOf]
      exact splitN_joinNl_nl _ (by rw [hblock]; simp) hno10
    | false =>
      rw [if_neg (by simp), if_neg (by simp), List.append_nil, List.append_nil, blockOf]
      exact splitN_joinNl _ (by rw [hblock]; simp) hno10
  have hdisj : ∀ k ∈ (sortAttrs attrs).map Prod.fst,
      k ∉ ([(dnKey, [dnPayload dn])] : AttrsB).map Prod.fst := by
    intro k hk
    obtain ⟨av, hav, rfl⟩ := List.mem_map.1 hk
    obtain ⟨hname, _, _⟩ := hsv av hav
    obtain ⟨_, _, hnotdn⟩ := validNameB_spec av.1 hname
    simp [hnotdn]
  have hassemble : assembleFrom [] (splitN (blockOf (dn, mixedAttrs attrs) ++
      (if tr then [10] else []))) =
      some ((dnKey, [dnPayload dn]) :: sortAttrs attrs) := by
    rw [hsplit, hblock]
    rw [List.cons_append, assembleFrom_cons, hdnadd []]
    show assembleFrom [(dnKey, [dnPayload dn])]
        (attrLinesB (sortAttrs attrs) ++ (if tr then [[]] else [])) = _
    rw [assembleAttrs (sortAttrs attrs) [(dnKey, [dnPayload dn])] _ hsv hsnd hdisj]
    cases tr with
    | true =>
      rw [if_pos rfl, assembleFrom_blank]
      rfl
    | false =>
      rw [if_neg (by simp)]
      rfl
  simp only [processEntry, hassemble,
    show lookupA ((dnKey, [dnPayload dn]) :: sortAttrs attrs) dnKey =
      some [dnPayload dn] from by simp [lookupA],
    show removeKey ((dnKey, [dnPayload dn]) :: sortAttrs attrs) dnKey =
      sortAttrs attrs from by simp [removeKey],
    hdndec, Option.map_some']

/-! ### The block structure of the full interchange text -/

/-- The text after the `version` header: blocks separated by blank lines,
one trailing newline after the last block. -/
def interB : List Str → Str
  | [] => []
  | [b] => b ++ [10]
  | b :: bs => b ++ 10 :: 10 :: interB bs

/-- What Python's `split('\n\n')` recovers from `interB`. -/
def blocksB : List Str → List Str
  | [] => []
  | [b] => [b ++ [10]]
  | b :: bs => b :: blocksB bs

theorem head_append_of_ne_nil (l : List Nat) (rest : List Nat) (h : l ≠ []) :
    (l ++ rest).head? = l.head? := by
  cases l with
  | nil => exact absurd rfl h
  | cons c t => rfl

theorem NoNN_glue (l Y : List Nat) (hl10 : 10 ∉ l) (hY : NoNN Y)
    (hYh : ∀ y, Y.head? = some y → y ≠ 10) : NoNN (l ++ 10 :: Y) := by
  rw [NoNN, List.chain'_append]
  refine ⟨NoNN_of_no10 l hl10, ?_, ?_⟩
  · rw [List.chain'_cons']
    refine ⟨?_, hY⟩
    intro y hy
    intro hc
    exact hYh y hy hc.2
  · intro x hx y hy
    simp only [List.head?_cons, Option.mem_def, Option.some.injEq] at hy
    intro hc
    have : x ∈ l := List.mem_of_mem_getLast? hx
    rw [hc.1] at this
    exact hl10 this

theorem NoNN_single_append (l : List Nat) (h : 10 ∉ l) : NoNN (l ++ [10]) := by
  rw [NoNN, List.chain'_append]
  refine ⟨NoNN_of_no10 l h, List.chain'_singleton 10, ?_⟩
  intro x hx y hy
  intro hc
  have : x ∈ l := List.mem_of_mem_getLast? hx
  rw [hc.1] at this
  exact h this

theorem joinNl_head_append (l2 : Str) (ls : List Str) :
    ∃ R, joinNl (l2 :: ls) = l2 ++ R := by
  cases ls with
  | nil => exact ⟨[], by simp [joinNl]⟩
  | cons l3 ls3 => exact ⟨10 :: joinNl (l3 :: ls3), rfl⟩

theorem NoNN_joinNl_nl (lines : List Str) (hne : lines ≠ [])
    (h : ∀ l ∈ lines, l ≠ [] ∧ 10 ∉ l) : NoNN (joinNl lines ++ [10]) := by
  induction lines with
  | nil => exact absurd rfl hne
  | cons l ls ih =>
    cases ls with
    | nil => exact NoNN_single_append l (h l (by simp)).2
    | cons l2 ls2 =>
      rw [joinNl_cons_ne l (l2 :: ls2) (by simp)]
      rw [show (l ++ 10 :: joinNl (l2 :: ls2)) ++ [10] =
        l ++ 10 :: (joinNl (l2 :: ls2) ++ [10]) from by simp]
      apply NoNN_glue l _ (h l (by simp)).2 (ih (by simp) (fun x hx => h x (by simp [hx])))
      intro y hy
      obtain ⟨R, hR⟩ := joinNl_head_append l2 ls2
      rw [hR] at hy
      rw [show (l2 ++ R) ++ [10] = l2 ++ (R ++ [10]) from by simp] at hy
      rw [head_append_of_ne_nil l2 _ (h l2 (by simp)).1] at hy
      intro hc
      subst hc
      have : (10 : Nat) ∈ l2 := by
        cases l2 with
        | nil => simp at hy
        | cons c t =>
          simp only [List.head?_cons, Option.some.injEq] at hy
          simp [hy]
      exact (h l2 (by simp)).2 this

theorem splitNN_interB (bs : List Str) (hne : bs ≠ [])
    (h : ∀ b ∈ bs, NoNN (b ++ [10])) : splitNN (interB bs) = blocksB bs := by
  induction bs with
  | nil => exact absurd rfl hne
  | cons b bs' ih =>
    cases bs' with
    | nil =>
      show splitNN (b ++ [10]) = [b ++ [10]]
      exact splitNN_of_NoNN _ (h b (by simp))
    | cons b2 bs2 =>
      show splitNN (b ++ 10 :: 10 :: interB (b2 :: bs2)) = b :: blocksB (b2 :: bs2)
      rw [splitNN_peel b _ (h b (by simp))]
      rw [ih (by simp) (fun x hx => h x (by simp [hx]))]

theorem entryBlocksLines_ne_nil (e : Str × AttrsM) (es : EntriesM) :
    entryBlocksLines (e :: es) ≠ [] := by
  show entryLines e ++ entryBlocksLines es ≠ []
  rw [entryLines_eq]
  simp [blockLines]

theorem joinNl_entryBlocks (es : EntriesM) (hne : es ≠ []) :
    joinNl (entryBlocksLines es) = interB (es.map blockOf) := by
  induction es with
  | nil => exact absurd rfl hne
  | cons e es' ih =>
    have hone : joinNl (entryLines e) = blockOf e ++ [10] := by
      rw [entryLines_eq]
      rw [joinNl_append (blockLines e) [blankLine] (by simp [blockLines]) (by simp)]
      rw [show joinNl [blankLine] = [] from rfl, blockOf]
    cases es' with
    | nil =>
      show joinNl (entryLines e ++ entryBlocksLines []) = interB [blockOf e]
      rw [show entryBlocksLines [] = [] from rfl, List.append_nil, hone]
      rfl
    | cons e2 es2 =>
      show joinNl (entryLines e ++ entryBlocksLines (e2 :: es2)) =
        interB (blockOf e :: (e2 :: es2).map blockOf)
      rw [joinNl_append (entryLines e) (entryBlocksLines (e2 :: es2))
        (by rw [entryLines_eq]; simp [blockLines]) (entryBlocksLines_ne_nil e2 es2)]
      rw [hone, ih (by simp)]
      rw [show interB (blockOf e :: (e2 :: es2).map blockOf) =
        blockOf e ++ 10 :: 10 :: interB ((e2 :: es2).map blockOf) from rfl]
      simp

theorem joinNl_entries_to_ldif (es : EntriesM) (hne : es ≠ []) :
    joinNl (versionLine :: blankLine :: entryBlocksLines es) =
      versionLine ++ 10 :: 10 :: interB (es.map blockOf) := by
  cases es with
  | nil => exact absurd rfl hne
  | cons e es' =>
    rw [joinNl_cons_ne versionLine _ (by simp)]
    rw [joinNl_cons_ne blankLine _ (by simpa using entryBlocksLines_ne_nil e es')]
    rw [joinNl_entryBlocks (e :: es') (by simp)]
    rfl

/-! ### Folding the decoder over the blocks -/

theorem dictInsert_not_mem {β : Type} (acc : List (Str × β)) (k : Str) (v : β)
    (h : k ∉ acc.map Prod.fst) : dictInsert acc k v = acc ++ [(k, v)] := by
  induction acc with
  | nil => rfl
  | cons e rest ih =>
    obtain ⟨k0, v0⟩ := e
    have hk : k0 ≠ k := by
      intro hk
      exact h (by simp [hk])
    rw [show dictInsert ((k0, v0) :: rest) k v =
      (if k0 = k then (k0, v) :: rest else (k0, v0) :: dictInsert rest k v) from rfl]
    rw [if_neg hk, ih (fun hm => h (by simp [hm]))]
    rfl

theorem processBlocks_cons (b : Str) (rest : List Str) (acc : EntriesB) :
    processBlocks (b :: rest) acc =
      (if stripStr b = [] then processBlocks rest acc
      else if b.take 8 = versionColon then
        (if matchVer (stripStr b) then processBlocks rest acc else none)
      else
        match processEntry b with
        | none => none
        | some (dn, attrs) => processBlocks rest (dictInsert acc dn attrs)) := rfl

theorem processBlocks_version (rest : List Str) (acc : EntriesB) :
    processBlocks (versionLine :: rest) acc = processBlocks rest acc := by
  rw [processBlocks_cons]
  rw [if_neg (by decide), if_pos (by decide), if_pos (by decide)]

theorem blockOf_head (dn : Str) (attrs : AttrsB) :
    ∃ R, blockOf (dn, mixedAttrs attrs) = 100 :: 110 :: R := by
  obtain ⟨R1, hR1⟩ := joinNl_head_append (ldif_encode dnKey (.text (dn, mixedAttrs attrs).1))
    (attrLines (sortAttrs (dn, mixedAttrs attrs).2))
  rw [blockOf, blockLines, hR1, ldif_encode_text]
  cases h : (dn.any fun c => !memBase c) with
  | true =>
    rw [if_pos rfl]
    exact ⟨(58 :: 58 :: 32 :: b64encode (utf8Str dn)) ++ R1, by simp [dnKey]⟩
  | false =>
    rw [if_neg (by simp)]
    exact ⟨(58 :: 32 :: dn) ++ R1, by simp [dnKey]⟩

theorem processBlocks_entry (dn : Str) (attrs : AttrsB) (tr : Bool) (rest : List Str)
    (acc : EntriesB) (hdn : validDnB dn = true) (hattrs : validAttrsB attrs = true)
    (hfresh : dn ∉ acc.map Prod.fst) :
    processBlocks ((blockOf (dn, mixedAttrs attrs) ++ (if tr then [10] else [])) :: rest) acc =
      processBlocks rest (acc ++ [(dn, sortAttrs attrs)]) := by
  obtain ⟨R, hR⟩ := blockOf_head dn attrs
  have hblockform : blockOf (dn, mixedAttrs attrs) ++ (if tr then [10] else []) =
      100 :: 110 :: (R ++ (if tr then [10] else [])) := by
    rw [hR]; simp
  rw [processBlocks_cons]
  rw [if_neg (by
    rw [hblockform]
    exact stripStr_ne_nil _ 100 (by simp) (by decide))]
  rw [if_neg (by
    rw [hblockform]
    intro hcon
    rw [show (8 : Nat) = 7 + 1 from rfl, List.take_succ_cons] at hcon
    simp [versionColon] at hcon)]
  rw [processEntry_block dn attrs tr hdn hattrs]
  show processBlocks rest (dictInsert acc dn (sortAttrs attrs)) = _
  rw [dictInsert_not_mem acc dn _ hfresh]

theorem blockLines_facts (dn : Str) (attrs : AttrsB)
    (hdn : validDnB dn = true) (hattrs : validAttrsB attrs = true) :
    ∀ l ∈ blockLines (dn, mixedAttrs attrs), l ≠ [] ∧ ∀ x ∈ l, x < 128 ∧ x ≠ 10 := by
  obtain ⟨hsnd, hsv⟩ := sortAttrs_valid attrs hattrs
  obtain ⟨hdnchars, hdnne, _, _⟩ := encode_dn_line dn hdn
  have hsattrs : sortAttrs (mixedAttrs attrs) = mixedAttrs (sortAttrs attrs) :=
    sortAttrs_map_val (List.map LdifValue.bytes) attrs
  have hblock : blockLines (dn, mixedAttrs attrs) =
      ldif_encode dnKey (.text dn) :: attrLinesB (sortAttrs attrs) := by
    show ldif_encode dnKey (.text dn) :: attrLines (sortAttrs (mixedAttrs attrs)) = _
    rw [hsattrs]
    rw [show mixedAttrs (sortAttrs attrs) =
      (sortAttrs attrs).map (fun av => (av.1, av.2.map LdifValue.bytes)) from rfl]
    rw [attrLines_map_bytes]
  intro l hl
  rw [hblock] at hl
  rcases List.mem_cons.1 hl with h1 | h1
  · subst h1
    exact ⟨hdnne, hdnchars⟩
  · obtain ⟨av, hav, v, hv, rfl⟩ := (mem_attrLinesB _ _).1 h1
    obtain ⟨hname, _, hvall⟩ := hsv av hav
    obtain ⟨hc, hne, _⟩ := encode_value_line av.1 v hname (hvall v hv)
    exact ⟨hne, hc⟩

theorem mem_joinNl (lines : List Str) (c : Nat) (hc : c ∈ joinNl lines) :
    c = 10 ∨ ∃ l ∈ lines, c ∈ l := by
  induction lines with
  | nil => simp [joinNl] at hc
  | cons l ls ih =>
    cases ls with
    | nil =>
      right
      exact ⟨l, by simp, hc⟩
    | cons l2 ls2 =>
      rw [joinNl_cons_ne l (l2 :: ls2) (by simp)] at hc
      rcases List.mem_append.1 hc with h1 | h1
      · right; exact ⟨l, by simp, h1⟩
      · rcases List.mem_cons.1 h1 with h2 | h2
        · left; exact h2
        · rcases ih h2 with h3 | ⟨l', hl', hcl'⟩
          · left; exact h3
          · right; exact ⟨l', by simp [hl'], hcl'⟩

theorem mem_entryBlocksLines (es : EntriesM) (l : Str) (hl : l ∈ entryBlocksLines es) :
    ∃ e ∈ es, l ∈ entryLines e := by
  induction es with
  | nil => simp [entryBlocksLines] at hl
  | cons e es' ih =>
    rw [show entryBlocksLines (e :: es') = entryLines e ++ entryBlocksLines es' from rfl] at hl
    rcases List.mem_append.1 hl with h1 | h1
    · exact ⟨e, by simp, h1⟩
    · obtain ⟨e', he', hle'⟩ := ih h1
      exact ⟨e', by simp [he'], hle'⟩

/-! ### Lookup lemmas for the final dictionary equivalence -/

theorem lookupA_map_val {β γ : Type} (f : β → γ) (l : List (Str × β)) (k : Str) :
    lookupA (l.map (fun e => (e.1, f e.2))) k = (lookupA l k).map f := by
  induction l with
  | nil => rfl
  | cons e rest ih =>
    obtain ⟨k0, v0⟩ := e
    by_cases h : k0 = k
    · subst h; simp [lookupA]
    · simp [lookupA, h, ih]

theorem lookupA_perm {β : Type} {l₁ l₂ : List (Str × β)} (hperm : l₁.Perm l₂)
    (hnd : (l₁.map Prod.fst).Nodup) (k : Str) : lookupA l₁ k = lookupA l₂ k := by
  induction hperm with
  | nil => rfl
  | cons x h ih =>
    obtain ⟨kx, vx⟩ := x
    show (if kx = k then some vx else lookupA _ k) = (if kx = k then some vx else lookupA _ k)
    by_cases hk : kx = k
    · rw [if_pos hk, if_pos hk]
    · rw [if_neg hk, if_neg hk]
      exact ih (by simp at hnd; exact hnd.2)
  | swap x y t =>
    obtain ⟨kx, vx⟩ := x
    obtain ⟨ky, vy⟩ := y
    have hne : ky ≠ kx := by
      simp at hnd
      intro h
      exact hnd.1.1 h
    show (if ky = k then some vy else if kx = k then some vx else lookupA t k) =
      (if kx = k then some vx else if ky = k then some vy else lookupA t k)
    by_cases h1 : ky = k
    · rw [if_pos h1, if_neg (by rw [← h1]; exact fun hc => hne hc.symm), if_pos h1]
    · by_cases h2 : kx = k
      · rw [if_neg h1, if_pos h2, if_pos h2]
      · rw [if_neg h1, if_neg h2, if_neg h2, if_neg h1]
  | trans h₁ h₂ ih₁ ih₂ =>
    rw [ih₁ hnd, ih₂ ((h₁.map Prod.fst).nodup_iff.1 hnd)]

theorem lookupA_some_mem {β : Type} (l : List (Str × β)) (k : Str) (v : β)
    (h : lookupA l k = some v) : (k, v) ∈ l := by
  induction l with
  | nil => simp [lookupA] at h
  | cons e rest ih =>
    obtain ⟨k0, v0⟩ := e
    by_cases hk : k0 = k
    · subst hk
      rw [show lookupA ((k0, v0) :: rest) k0 = some v0 from by simp [lookupA]] at h
      simp at h
      simp [h]
    · rw [show lookupA ((k0, v0) :: rest) k = lookupA rest k from by simp [lookupA, hk]] at h
      simp [ih h]

/-- Equality of two attribute maps as Python dicts. -/
def attrsEquiv (A B : AttrsB) : Prop := ∀ nm, lookupA A nm = lookupA B nm

/-- Equality of two snapshots as Python dicts of dicts: same DNs, and for each
DN the same attribute names with identical (ordered) value lists. -/
def dictEquiv (D S2 : EntriesB) : Prop :=
  ∀ dn, (lookupA D dn = none ∧ lookupA S2 dn = none) ∨
    ∃ a b, lookupA D dn = some a ∧ lookupA S2 dn = some b ∧ attrsEquiv a b

theorem processBlocks_blocksB (L : EntriesB) (acc : EntriesB)
    (hval : ∀ e ∈ L, validDnB e.1 = true ∧ validAttrsB e.2 = true)
    (hnd : (L.map Prod.fst).Nodup)
    (hfresh : ∀ e ∈ L, e.1 ∉ acc.map Prod.fst)
    (hne : L ≠ []) :
    processBlocks (blocksB (L.map (fun e => blockOf (e.1, mixedAttrs e.2)))) acc =
      some (acc ++ L.map (fun e => (e.1, sortAttrs e.2))) := by
  induction L generalizing acc with
  | nil => exact absurd rfl hne
  | cons e L' ih =>
    cases L' with
    | nil =>
      show processBlocks [blockOf (e.1, mixedAttrs e.2) ++ [10]] acc = _
      rw [show blockOf (e.1, mixedAttrs e.2) ++ [10] =
        blockOf (e.1, mixedAttrs e.2) ++ (if true then [10] else []) from rfl]
      rw [processBlocks_entry e.1 e.2 true [] acc (hval e (by simp)).1 (hval e (by simp)).2
        (hfresh e (by simp))]
      rfl
    | cons e2 L2 =>
      show processBlocks (blockOf (e.1, mixedAttrs e.2) ::
        blocksB ((e2 :: L2).map (fun e => blockOf (e.1, mixedAttrs e.2)))) acc = _
      rw [show blockOf (e.1, mixedAttrs e.2) =
        blockOf (e.1, mixedAttrs e.2) ++ (if false then [10] else []) from by simp]
      rw [processBlocks_entry e.1 e.2 false _ acc (hval e (by simp)).1 (hval e (by simp)).2
        (hfresh e (by simp))]
      have hnd0 : e.1 ∉ (e2 :: L2).map Prod.fst ∧ ((e2 :: L2).map Prod.fst).Nodup := by
        have h0 := hnd
        rw [List.map_cons, List.nodup_cons] at h0
        exact h0
      have hfresh' : ∀ e' ∈ e2 :: L2, e'.1 ∉ (acc ++ [(e.1, sortAttrs e.2)]).map Prod.fst := by
        intro e' he'
        rw [List.map_append, List.mem_append]
        rintro (h1 | h1)
        · exact hfresh e' (by simp [he']) h1
        · simp only [List.map_cons, List.map_nil, List.mem_singleton] at h1
          apply hnd0.1
          rw [← h1]
          exact List.mem_map.2 ⟨e', he', rfl⟩
      rw [ih (acc ++ [(e.1, sortAttrs e.2)]) (fun e' he' => hval e' (by simp [he']))
        hnd0.2 hfresh' (by simp)]
      rw [show (acc ++ [(e.1, sortAttrs e.2)]) ++
        (e2 :: L2).map (fun e => (e.1, sortAttrs e.2)) =
        acc ++ (e :: e2 :: L2).map (fun e => (e.1, sortAttrs e.2)) from by simp]

theorem toMixed_map (S : EntriesB) :
    toMixed S = S.map (fun e => (e.1, mixedAttrs e.2)) := rfl

/-- **C1.** For every valid snapshot `S` (well-formed DNs and attribute
values, no duplicate keys), decoding the bytes of the text produced by
encoding `S` succeeds and yields a dictionary equal — as a Python dict of
dicts, with per-attribute value order and byte-for-byte value equality —
to `S`:  `ldif_to_entries (encode (joinNl (entries_to_ldif S))) == S`. -/
theorem ldif_roundtrip (S : EntriesB) (hS : validSnapshot S = true) :
    ∃ D, ldif_to_entries (utf8Str (joinNl (entries_to_ldif (toMixed S)))) = some D ∧
      dictEquiv D S := by
  obtain ⟨hndS, hvalS⟩ := validSnapshot_spec S hS
  by_cases hS0 : S = []
  · subst hS0
    exact ⟨[], rfl, fun dn => Or.inl ⟨rfl, rfl⟩⟩
  · have hperm : (sortEntries S).Perm S := List.perm_insertionSort entryLe S
    have hndL : ((sortEntries S).map Prod.fst).Nodup :=
      ((hperm.map Prod.fst).nodup_iff).2 hndS
    have hvalL : ∀ e ∈ sortEntries S, validDnB e.1 = true ∧ validAttrsB e.2 = true :=
      fun e he => hvalS e (hperm.subset he)
    have hneL : sortEntries S ≠ [] := by
      intro h
      rw [h] at hperm
      exact hS0 hperm.symm.eq_nil
    have hmixsort : sortEntries (toMixed S) = toMixed (sortEntries S) := by
      rw [toMixed_map, toMixed_map]
      exact sortEntries_map_val mixedAttrs S
    have hEL : entries_to_ldif (toMixed S) =
        versionLine :: blankLine :: entryBlocksLines (toMixed (sortEntries S)) := by
      show versionLine :: blankLine :: entryBlocksLines (sortEntries (toMixed S)) = _
      rw [hmixsort]
    have hneM : toMixed (sortEntries S) ≠ [] := by
      rw [toMixed_map]
      simp [hneL]
    have hT : joinNl (entries_to_ldif (toMixed S)) =
        versionLine ++ 10 :: 10 ::
          interB ((sortEntries S).map (fun e => blockOf (e.1, mixedAttrs e.2))) := by
      rw [hEL, joinNl_entries_to_ldif (toMixed (sortEntries S)) hneM, toMixed_map,
        List.map_map]
      rfl
    have hbs : ∀ e ∈ sortEntries S, NoNN (blockOf (e.1, mixedAttrs e.2) ++ [10]) := by
      intro e he
      show NoNN (joinNl (blockLines (e.1, mixedAttrs e.2)) ++ [10])
      apply NoNN_joinNl_nl (blockLines (e.1, mixedAttrs e.2)) (by simp [blockLines])
      intro l hl
      obtain ⟨hne, hchars⟩ :=
        blockLines_facts e.1 e.2 (hvalL e he).1 (hvalL e he).2 l hl
      exact ⟨hne, fun h10 => (hchars 10 h10).2 rfl⟩
    have hball : ∀ b ∈ (sortEntries S).map (fun e => blockOf (e.1, mixedAttrs e.2)),
        NoNN (b ++ [10]) := by
      intro b hb
      obtain ⟨e, he, rfl⟩ := List.mem_map.1 hb
      exact hbs e he
    have hsplit : splitNN (joinNl (entries_to_ldif (toMixed S))) =
        versionLine ::
          blocksB ((sortEntries S).map (fun e => blockOf (e.1, mixedAttrs e.2))) := by
      rw [hT, splitNN_peel _ _ (NoNN_single_append versionLine (by decide)),
        splitNN_interB _ (by simp [hneL]) hball]
    have hascii : ∀ c ∈ joinNl (entries_to_ldif (toMixed S)), c < 128 := by
      intro c hc
      rcases mem_joinNl _ c hc with h10 | ⟨l, hl, hcl⟩
      · omega
      · rw [hEL] at hl
        rcases List.mem_cons.1 hl with h1 | h1
        · subst h1
          have hv : ∀ x ∈ versionLine, x < 128 := by decide
          exact hv c hcl
        · rcases List.mem_cons.1 h1 with h2 | h2
          · subst h2
            simp [blankLine] at hcl
          · obtain ⟨e, he, hle⟩ := mem_entryBlocksLines _ l h2
            rw [toMixed_map] at he
            obtain ⟨e0, he0, rfl⟩ := List.mem_map.1 he
            rw [entryLines_eq] at hle
            rcases List.mem_append.1 hle with h3 | h3
            · exact ((blockLines_facts e0.1 e0.2 (hvalL e0 he0).1 (hvalL e0 he0).2
                l h3).2 c hcl).1
            · simp only [List.mem_singleton] at h3
              subst h3
              simp [blankLine] at hcl
    have hU : utf8Str (joinNl (entries_to_ldif (toMixed S))) =
        joinNl (entries_to_ldif (toMixed S)) := utf8Str_ascii hascii
    have hguard :
        (joinNl (entries_to_ldif (toMixed S))).all (fun c => decide (c < 128)) = true := by
      rw [List.all_eq_true]
      intro c hc
      exact decide_eq_true (hascii c hc)
    have hdec : ldif_to_entries (utf8Str (joinNl (entries_to_ldif (toMixed S)))) =
        some ((sortEntries S).map (fun e => (e.1, sortAttrs e.2))) := by
      rw [hU]
      show (if (joinNl (entries_to_ldif (toMixed S))).all (fun c => decide (c < 128))
        then processBlocks (splitNN (joinNl (entries_to_ldif (toMixed S)))) []
        else none) = _
      rw [if_pos hguard, hsplit, processBlocks_version]
      rw [processBlocks_blocksB (sortEntries S) [] hvalL hndL (by simp) hneL]
      rw [List.nil_append]
    refine ⟨(sortEntries S).map (fun e => (e.1, sortAttrs e.2)), hdec, ?_⟩
    intro dn
    have hlook : lookupA ((sortEntries S).map (fun e => (e.1, sortAttrs e.2))) dn =
        (lookupA (sortEntries S) dn).map sortAttrs :=
      lookupA_map_val sortAttrs (sortEntries S) dn
    have hlperm : lookupA (sortEntries S) dn = lookupA S dn := lookupA_perm hperm hndL dn
    cases hS2 : lookupA S dn with
    | none =>
      left
      rw [hlook, hlperm, hS2]
      exact ⟨rfl, rfl⟩
    | some a =>
      right
      refine ⟨sortAttrs a, a, ?_, rfl, ?_⟩
      · rw [hlook, hlperm, hS2]
        rfl
      · have hmem : (dn, a) ∈ S := lookupA_some_mem S dn a hS2
        have hnda : (a.map Prod.fst).Nodup := (validAttrsB_spec a (hvalS (dn, a) hmem).2).1
        have hpa : (sortAttrs a).Perm a := List.perm_insertionSort _ a
        have hnda' : ((sortAttrs a).map Prod.fst).Nodup :=
          ((hpa.map Prod.fst).nodup_iff).2 hnda
        intro nm
        exact lookupA_perm hpa hnda' nm

/-- C1 witness: the round trip at a concrete one-entry snapshot
(dn `"a"`, one attribute `"b"` with single value `b"c"`). -/
theorem ldif_roundtrip_witness :
    validSnapshot [([97], [([98], [[99]])])] = true ∧
      ∃ D, ldif_to_entries (utf8Str (joinNl (entries_to_ldif
        (toMixed [([97], [([98], [[99]])])])))) = some D ∧
        dictEquiv D [([97], [([98], [[99]])])] :=
  ⟨by decide, ldif_roundtrip [([97], [([98], [[99]])])] (by decide)⟩
